import Mathlib

/-!
Shallow embedding of the boksy table/index layer (src db.ts, `Database` class)
over an ordered key-value store modelled after Deno.Kv.

The store is a list of key/value pairs kept sorted by key, matching the
ordered iteration (`kv.list`) of the real store.  Keys are lists of key
parts; Deno.Kv accepts strings, numbers, bigints, booleans and byte arrays
as parts and orders parts by type first, then by value.  A JavaScript value
that is not a legal key part (such as `undefined` or a `Date`) makes the
store throw, which the embedding models by returning an `invalidKey` error;
writes performed before the throw remain, as they do in the source, where
each `set` commits separately.
-/

/-- Legal Deno.Kv key part, restricted to the shapes the repository uses. -/
inductive KeyPart where
  | str (s : String)
  | num (n : Int)
  | bool (b : Bool)
deriving DecidableEq, Repr

/-- Runtime JavaScript value stored in record fields. `date` stands for a
`Date` object carrying its timestamp; a `Date` is not a legal key part. -/
inductive TSVal where
  | str (s : String)
  | num (n : Int)
  | bool (b : Bool)
  | date (ms : Nat)
deriving DecidableEq, Repr

/-- Conversion of a field value to a key part, as performed by the casts
`key as Deno.KvKeyPart` in the source; `Date` objects are rejected. -/
def TSVal.toKeyPart : TSVal → Option KeyPart
  | .str s => some (.str s)
  | .num n => some (.num n)
  | .bool b => some (.bool b)
  | .date _ => none

/-- JavaScript truthiness, used by the `if (key)` test in `create_index`. -/
def TSVal.truthy : TSVal → Bool
  | .str s => !(s == "")
  | .num n => !(n == 0)
  | .bool b => b
  | .date _ => true

/-- A record object: an association list from field names to values, with
the first binding for a name the visible one. -/
abbrev Obj := List (String × TSVal)

/-- Property read `o[k]` on a record object. -/
def objGet : Obj → String → Option TSVal
  | [], _ => none
  | (k1, v1) :: rest, k => if k = k1 then some v1 else objGet rest k

/-- Value stored in the kv store: either a record object or a primitive
(index entries and index-definition markers store strings). -/
inductive Val where
  | obj (o : Obj)
  | prim (v : TSVal)
deriving DecidableEq, Repr

/-- View of a stored value as a primitive, `none` for objects. -/
def Val.asTS : Val → Option TSVal
  | .prim v => some v
  | .obj _ => none

abbrev Key := List KeyPart

abbrev KV := List (Key × Val)

/-- Type tag used for the cross-type ordering of key parts. -/
def KeyPart.tag : KeyPart → Nat
  | .str _ => 0
  | .num _ => 1
  | .bool _ => 2

/-- Lexicographic comparison of character lists by code point. -/
def charsLtb : List Char → List Char → Bool
  | [], [] => false
  | [], _ :: _ => true
  | _ :: _, [] => false
  | c :: cs, d :: ds => decide (c < d) || (decide (c = d) && charsLtb cs ds)

/-- Lexicographic string comparison, the order of string key parts. -/
def strLtb (a b : String) : Bool := charsLtb a.data b.data

/-- Strict order on key parts: by type tag, then by value. -/
def KeyPart.ltb : KeyPart → KeyPart → Bool
  | .str a, .str b => strLtb a b
  | .num a, .num b => decide (a < b)
  | .bool a, .bool b => !a && b
  | a, b => decide (a.tag < b.tag)

/-- Lexicographic strict order on keys, shorter prefixes first. -/
def keyLtb : Key → Key → Bool
  | [], [] => false
  | [], _ :: _ => true
  | _ :: _, [] => false
  | a :: as, b :: bs => KeyPart.ltb a b || (decide (a = b) && keyLtb as bs)

/-- Decides whether `p` is a leading segment of `k` (prefix selection of
`kv.list`). -/
def keyPre : Key → Key → Bool
  | [], _ => true
  | _ :: _, [] => false
  | a :: as, b :: bs => decide (a = b) && keyPre as bs

/-- Point lookup in the store. -/
def kvGet : KV → Key → Option Val
  | [], _ => none
  | (k1, v1) :: rest, k => if k = k1 then some v1 else kvGet rest k

/-- Write to the store, inserting in key order or replacing an existing
binding. -/
def kvSet : KV → Key → Val → KV
  | [], k, v => [(k, v)]
  | (k1, v1) :: rest, k, v =>
    if keyLtb k k1 then (k, v) :: (k1, v1) :: rest
    else if k = k1 then (k, v) :: rest
    else (k1, v1) :: kvSet rest k v

/-- Removal of a key from the store. -/
def kvDel : KV → Key → KV
  | [], _ => []
  | (k1, v1) :: rest, k => if k = k1 then rest else (k1, v1) :: kvDel rest k

/-- Ordered prefix scan (`kv.list({ prefix })`), unbounded. -/
def kvList (st : KV) (p : Key) : List (Key × Val) :=
  st.filter (fun e => keyPre p e.1)

/-- Ordered prefix scan with an optional result-count limit. -/
def kvListN (st : KV) (p : Key) (limit : Option Nat) : List (Key × Val) :=
  match limit with
  | none => kvList st p
  | some n => (kvList st p).take n

/-- Store sorted strictly by key; holds for every store built by the
operations from the empty store. -/
def KVSorted (st : KV) : Prop :=
  List.Chain' (fun a b => keyLtb a.1 b.1 = true) st

/-- Crockford base-32 digit, as in the ulid encoding alphabet. -/
def encChar (n : Nat) : Char :=
  "0123456789ABCDEFGHJKMNPQRSTVWXYZ".toList.getD n '0'

/-- Fixed-width base-32 rendering of the timestamp, most significant digit
first, as in the ulid `encodeTime` loop. -/
def encodeTime : Nat → Nat → String
  | _, 0 => ""
  | now, len + 1 => encodeTime (now / 32) len ++ String.mk [encChar (now % 32)]

/-- A ulid: ten time digits followed by the sixteen random characters. The
random characters are an input of the model, standing for the generator's
entropy. -/
def ulid (timeMs : Nat) (rand : String) : String :=
  encodeTime timeMs 10 ++ rand

/-- Errors of the embedded operations: `invalidKey` models the TypeError the
store throws when a key contains an illegal part; `notFound` is the missing
record failure of the specification. -/
inductive DBErr where
  | invalidKey
  | notFound
deriving DecidableEq, Repr

instance exceptDecEq {e a : Type} [DecidableEq e] [DecidableEq a] :
    DecidableEq (Except e a)
  | .error e1, .error e2 =>
    if h : e1 = e2 then .isTrue (by rw [h])
    else .isFalse (fun hc => h (Except.error.inj hc))
  | .ok a1, .ok a2 =>
    if h : a1 = a2 then .isTrue (by rw [h])
    else .isFalse (fun hc => h (Except.ok.inj hc))
  | .error e1, .ok a2 => .isFalse (fun hc => Except.noConfusion hc)
  | .ok a1, .error e2 => .isFalse (fun hc => Except.noConfusion hc)

/-- Key of an index entry: `["__indexes", table, field, value, id]`. -/
def idxKey (t f : String) (vp ip : KeyPart) : Key :=
  [.str "__indexes", .str t, .str f, vp, ip]

/-- Key of an index-definition marker: `["__indexes_for", table, field]`. -/
def mrkKey (t f : String) : Key :=
  [.str "__indexes_for", .str t, .str f]

/-- Loop body of `create_indexes_for_entry`: for each listed marker, write
`["__indexes", table, field, value[field], value.id] := value.id`.  The
source reads `value[secondary_key.value]` with no presence test, so an
absent field puts `undefined` in the key and the store throws. -/
def cifeGo (t : String) (value : Obj) : List (Key × Val) → KV → KV × Option DBErr
  | [], st => (st, none)
  | (_, mv) :: rest, st =>
    match mv with
    | .prim (.str f) =>
      match (objGet value f).bind TSVal.toKeyPart, objGet value "id" with
      | some vp, some idv =>
        match idv.toKeyPart with
        | some ip => cifeGo t value rest (kvSet st (idxKey t f vp ip) (.prim idv))
        | none => (st, some .invalidKey)
      | _, _ => (st, some .invalidKey)
    | _ => (st, some .invalidKey)

/-- Writes the index entries for one record: lists the markers under
`["__indexes_for", table]` and runs the loop. -/
def create_indexes_for_entry (st : KV) (t : String) (value : Obj) :
    KV × Option DBErr :=
  cifeGo t value (kvList st [.str "__indexes_for", .str t]) st

/-- The record built by `create_entry`: generated `id` and `date_created`
followed by the caller's fields. -/
def mkEntry (timeMs : Nat) (rand : String) (value : Obj) : Obj :=
  ("id", .str (ulid timeMs rand)) :: ("date_created", .date timeMs) :: value

/-- Generates a ulid, stores the record at `[table, id]`, then writes its
index entries; returns the full record on success. -/
def create_entry (st : KV) (t : String) (timeMs : Nat) (rand : String)
    (value : Obj) : KV × Except DBErr Obj :=
  let entry := mkEntry timeMs rand value
  let st1 := kvSet st [.str t, .str (ulid timeMs rand)] (.obj entry)
  match create_indexes_for_entry st1 t entry with
  | (st2, none) => (st2, .ok entry)
  | (st2, some e) => (st2, .error e)

/-- Stores the given (possibly partial) record at `[table, entry.id]` with
no existence check, then writes its index entries.  An unset or illegal
`id` makes the first `set` throw before anything is written. -/
def update_entry (st : KV) (t : String) (entry : Obj) : KV × Option DBErr :=
  match (objGet entry "id").bind TSVal.toKeyPart with
  | none => (st, some .invalidKey)
  | some ip =>
    create_indexes_for_entry (kvSet st [.str t, ip] (.obj entry)) t entry

/-- Point lookup of a record value; the id argument is whatever value the
caller passes (possibly `undefined`, modelled as `none`, which makes the
key illegal). -/
def get_entry (st : KV) (t : String) (id : Option TSVal) :
    Except DBErr (Option Val) :=
  match id.bind TSVal.toKeyPart with
  | none => .error .invalidKey
  | some p => .ok (kvGet st [.str t, p])

/-- Prefix scan over `[table]` returning the stored values. -/
def get_all_entries (st : KV) (t : String) (limit : Option Nat) : List Val :=
  (kvListN st [.str t] limit).map (·.2)

/-- Backfill loop of `create_index`: for each existing value of the table,
if the indexed field is truthy, write its index entry. -/
def backfillGo (t f : String) : List Val → KV → KV × Option DBErr
  | [], st => (st, none)
  | v :: rest, st =>
    match v with
    | .obj o =>
      match objGet o f with
      | some fv =>
        if fv.truthy then
          match fv.toKeyPart, objGet o "id" with
          | some vp, some idv =>
            match idv.toKeyPart with
            | some ip =>
              backfillGo t f rest (kvSet st (idxKey t f vp ip) (.prim idv))
            | none => (st, some .invalidKey)
          | _, _ => (st, some .invalidKey)
        else backfillGo t f rest st
      | none => backfillGo t f rest st
    | .prim _ => backfillGo t f rest st

/-- Declares an index: a no-op when the marker exists, otherwise persists
the marker and backfills entries for the existing records. -/
def create_index (st : KV) (t f : String) : KV × Option DBErr :=
  if (kvGet st (mrkKey t f)).isSome then (st, none)
  else
    let st1 := kvSet st (mrkKey t f) (.prim (.str f))
    backfillGo t f (get_all_entries st1 t none) st1

/-- Sequential dereferencing of the scanned index entries, as performed by
`Array.fromAsync` with an async mapper: the first rejection aborts. -/
def derefAll (st : KV) (t : String) : List (Key × Val) → Except DBErr (List (Option Val))
  | [] => .ok []
  | e :: rest =>
    match get_entry st t e.2.asTS with
    | .error er => .error er
    | .ok x =>
      match derefAll st t rest with
      | .error er => .error er
      | .ok xs => .ok (x :: xs)

/-- Scans the index entries under `["__indexes", table, field, value]` and
dereferences each stored primary key through `get_entry`; a dangling entry
contributes `none` to the result (the source keeps the `undefined`). -/
def get_entries_by_index (st : KV) (t f : String) (v : KeyPart) :
    Except DBErr (List (Option Val)) :=
  derefAll st t (kvList st [.str "__indexes", .str t, .str f, v])

/-- Same scan, dereferencing only the first match; with no match the source
passes `undefined` to `kv.get`, which throws. -/
def get_entry_by_index (st : KV) (t f : String) (v : KeyPart) :
    Except DBErr (Option Val) :=
  get_entry st t
    (((kvList st [.str "__indexes", .str t, .str f, v]).head?).bind
      (fun e => e.2.asTS))

/-- Loop of the delete operation's index maintenance, from the spec: for
every registered field, remove the entry for the record's value of that
field when the value is a legal key part. -/
def onDeleteGo (t id : String) (o : Obj) : List (Key × Val) → KV → KV
  | [], st => st
  | (_, mv) :: rest, st =>
    match mv with
    | .prim (.str f) =>
      match (objGet o f).bind TSVal.toKeyPart with
      | some vp => onDeleteGo t id o rest (kvDel st (idxKey t f vp (.str id)))
      | none => onDeleteGo t id o rest st
    | _ => onDeleteGo t id o rest st

/-- Modelled from the spec: `delete_entry` is not among the sources (only
`db.test.ts` exercises it).  Following spec sections 4.4 and 4.3, it fails
with `NotFound` when the record is absent, otherwise removes `(table, id)`
and then, for every registered field, the corresponding index entry. -/
def delete_entry (st : KV) (t id : String) : KV × Option DBErr :=
  match kvGet st [.str t, .str id] with
  | none => (st, some .notFound)
  | some (.obj o) =>
    let st1 := kvDel st [.str t, .str id]
    (onDeleteGo t id o (kvList st1 [.str "__indexes_for", .str t]) st1, none)
  | some (.prim _) => (kvDel st [.str t, .str id], none)

/-- Well-formed stores have no duplicate keys. -/
abbrev NodupKeys (st : KV) : Prop := (st.map Prod.fst).Nodup

/-- Characterizes a write `create_indexes_for_entry` can perform for a given
record value: the key and stored value it would use for some field. -/
def cifeWrite (t : String) (value : Obj) (k : Key) (w : Val) : Prop :=
  ∃ f v vp idv ip, k = idxKey t f vp ip ∧ objGet value f = some v ∧
    v.toKeyPart = some vp ∧ objGet value "id" = some idv ∧
    idv.toKeyPart = some ip ∧ w = Val.prim idv

/-- Characterizes a write the backfill loop of `create_index` can perform
for a given listed record object. -/
def bfWrite (t f : String) (o : Obj) (k : Key) (w : Val) : Prop :=
  ∃ fv vp idv ip, objGet o f = some fv ∧ fv.truthy = true ∧
    fv.toKeyPart = some vp ∧ objGet o "id" = some idv ∧
    idv.toKeyPart = some ip ∧ k = idxKey t f vp ip ∧ w = Val.prim idv

/-- Record objects live only at two-part keys `[table, id-part]`. -/
def ObjShape (st : KV) : Prop :=
  ∀ k o, kvGet st k = some (Val.obj o) → ∃ t ip, k = [KeyPart.str t, ip]

/-- A stored record's `id` field matches the key part it is stored under. -/
def RecWF (st : KV) : Prop :=
  ∀ t ip o, kvGet st [KeyPart.str t, ip] = some (Val.obj o) →
    ∃ idv, objGet o "id" = some idv ∧ idv.toKeyPart = some ip

/-- An index-definition marker stores exactly its own field name. -/
def MrkWF (st : KV) : Prop :=
  ∀ t f v, kvGet st (mrkKey t f) = some v → v = Val.prim (.str f)

/-- Index coverage: every stored record of a table with a registered index
on a field whose value is present, truthy and a legal key part has its
index entry, holding the record's id. -/
def IdxInv (st : KV) : Prop :=
  ∀ t ip o f v vp,
    kvGet st [KeyPart.str t, ip] = some (Val.obj o) →
    (kvGet st (mrkKey t f)).isSome = true →
    objGet o f = some v → v.truthy = true → v.toKeyPart = some vp →
    ∃ idv, objGet o "id" = some idv ∧ idv.toKeyPart = some ip ∧
      kvGet st (idxKey t f vp ip) = some (Val.prim idv)

/-- Global well-formedness of reachable stores. -/
def GInv (st : KV) : Prop :=
  KVSorted st ∧ ObjShape st ∧ RecWF st ∧ MrkWF st ∧ IdxInv st

/-- One mutating operation of the database layer. -/
inductive Op where
  | create (t : String) (timeMs : Nat) (rand : String) (value : Obj)
  | update (t : String) (entry : Obj)
  | declare (t f : String)

/-- Applies an operation, returning the new store and the error if any. -/
def applyOp (st : KV) : Op → KV × Option DBErr
  | .create t tm r v =>
    match create_entry st t tm r v with
    | (st1, .ok _) => (st1, none)
    | (st1, .error e) => (st1, some e)
  | .update t e => update_entry st t e
  | .declare t f => create_index st t f

/-- Stores reachable from the empty store by successful operations. -/
inductive Reach : KV → Prop where
  | nil : Reach []
  | step {st st1 : KV} {op : Op} : Reach st → applyOp st op = (st1, none) →
      Reach st1

/-- Applies a sequence of `create_entry` calls (timestamp, random characters,
fields) to a store. -/
def createAll (st : KV) (t : String) : List (Nat × String × Obj) → KV
  | [] => st
  | c :: rest => createAll (create_entry st t c.1 c.2.1 c.2.2).1 t rest

/-- Executable check that a stored pair is a well-formed record binding:
objects sit at two-part keys and carry their key part in their `id` field. -/
def entryWF : Key × Val → Bool
  | (k, Val.obj o) =>
    match k, objGet o "id" with
    | [KeyPart.str _, ip], some idv => idv.toKeyPart == some ip
    | _, _ => false
  | (_, Val.prim _) => true

/-- Executable record well-formedness of a whole store. -/
def recWFB (st : KV) : Bool := st.all entryWF

/-! Order lemmas for key parts and keys. -/

theorem charsLtb_irrefl : ∀ l : List Char, charsLtb l l = false
  | [] => rfl
  | c :: cs => by simp [charsLtb, charsLtb_irrefl cs, lt_irrefl]

theorem charsLtb_trans : ∀ {x y z : List Char}, charsLtb x y = true →
    charsLtb y z = true → charsLtb x z = true
  | [], [], _, h1, _ => by simp [charsLtb] at h1
  | [], _ :: _, [], _, h2 => by simp [charsLtb] at h2
  | [], _ :: _, _ :: _, _, _ => by simp [charsLtb]
  | _ :: _, [], _, h1, _ => by simp [charsLtb] at h1
  | _ :: _, _ :: _, [], _, h2 => by simp [charsLtb] at h2
  | a :: as, b :: bs, c :: cs, h1, h2 => by
    simp only [charsLtb, Bool.or_eq_true, Bool.and_eq_true,
      decide_eq_true_eq] at h1 h2 ⊢
    rcases h1 with h1 | ⟨hab, h1⟩
    · rcases h2 with h2 | ⟨hbc, h2⟩
      · exact Or.inl (lt_trans h1 h2)
      · exact Or.inl (hbc ▸ h1)
    · rcases h2 with h2 | ⟨hbc, h2⟩
      · exact Or.inl (hab ▸ h2)
      · exact Or.inr ⟨hab.trans hbc, charsLtb_trans h1 h2⟩

theorem charsLtb_connex : ∀ x y : List Char, x ≠ y →
    charsLtb x y = true ∨ charsLtb y x = true
  | [], [], h => absurd rfl h
  | [], _ :: _, _ => Or.inl (by simp [charsLtb])
  | _ :: _, [], _ => Or.inr (by simp [charsLtb])
  | a :: as, b :: bs, h => by
    by_cases hab : a = b
    · subst hab
      have hne : as ≠ bs := fun hh => h (hh ▸ rfl)
      rcases charsLtb_connex as bs hne with hl | hr
      · exact Or.inl (by simp [charsLtb, hl])
      · exact Or.inr (by simp [charsLtb, hr])
    · rcases Ne.lt_or_lt hab with hl | hr
      · exact Or.inl (by simp [charsLtb, hl])
      · exact Or.inr (by simp [charsLtb, hr])

theorem strLtb_irrefl (a : String) : strLtb a a = false :=
  charsLtb_irrefl a.data

theorem strLtb_trans {a b c : String} (h1 : strLtb a b = true)
    (h2 : strLtb b c = true) : strLtb a c = true :=
  charsLtb_trans h1 h2

theorem strLtb_connex (a b : String) (h : a ≠ b) :
    strLtb a b = true ∨ strLtb b a = true := by
  apply charsLtb_connex
  intro hd
  apply h
  cases a
  cases b
  simp_all

theorem KeyPart.ltb_irrefl (a : KeyPart) : KeyPart.ltb a a = false := by
  cases a <;> simp [KeyPart.ltb, strLtb_irrefl]

theorem KeyPart.ltb_trans {a b c : KeyPart} (h1 : KeyPart.ltb a b = true)
    (h2 : KeyPart.ltb b c = true) : KeyPart.ltb a c = true := by
  cases a <;> cases b <;> cases c <;>
    simp_all [KeyPart.ltb, KeyPart.tag] <;>
    first
      | exact strLtb_trans h1 h2
      | exact lt_trans h1 h2

theorem KeyPart.ltb_connex (a b : KeyPart) (h : a ≠ b) :
    KeyPart.ltb a b = true ∨ KeyPart.ltb b a = true := by
  cases a with
  | str sa =>
    cases b with
    | str sb =>
      have hne : sa ≠ sb := fun hh => h (by rw [hh])
      rcases strLtb_connex sa sb hne with hl | hr
      · exact Or.inl (by simp [KeyPart.ltb, hl])
      · exact Or.inr (by simp [KeyPart.ltb, hr])
    | num nb => exact Or.inl (by simp [KeyPart.ltb, KeyPart.tag])
    | bool bb => exact Or.inl (by simp [KeyPart.ltb, KeyPart.tag])
  | num na =>
    cases b with
    | str sb => exact Or.inr (by simp [KeyPart.ltb, KeyPart.tag])
    | num nb =>
      have hne : na ≠ nb := fun hh => h (by rw [hh])
      rcases Ne.lt_or_lt hne with hl | hr
      · exact Or.inl (by simp [KeyPart.ltb, hl])
      · exact Or.inr (by simp [KeyPart.ltb, hr])
    | bool bb => exact Or.inl (by simp [KeyPart.ltb, KeyPart.tag])
  | bool ba =>
    cases b with
    | str sb => exact Or.inr (by simp [KeyPart.ltb, KeyPart.tag])
    | num nb => exact Or.inr (by simp [KeyPart.ltb, KeyPart.tag])
    | bool bb => cases ba <;> cases bb <;> simp_all [KeyPart.ltb]

theorem keyLtb_irrefl : ∀ k : Key, keyLtb k k = false
  | [] => rfl
  | a :: as => by simp [keyLtb, KeyPart.ltb_irrefl, keyLtb_irrefl as]

theorem keyLtb_trans : ∀ {x y z : Key}, keyLtb x y = true → keyLtb y z = true →
    keyLtb x z = true
  | [], [], _, h1, _ => by simp [keyLtb] at h1
  | [], _ :: _, [], _, h2 => by simp [keyLtb] at h2
  | [], _ :: _, _ :: _, _, _ => by simp [keyLtb]
  | _ :: _, [], _, h1, _ => by simp [keyLtb] at h1
  | _ :: _, _ :: _, [], _, h2 => by simp [keyLtb] at h2
  | a :: as, b :: bs, c :: cs, h1, h2 => by
    simp only [keyLtb, Bool.or_eq_true, Bool.and_eq_true, decide_eq_true_eq] at h1 h2 ⊢
    rcases h1 with h1 | ⟨hab, h1⟩
    · rcases h2 with h2 | ⟨hbc, h2⟩
      · exact Or.inl (KeyPart.ltb_trans h1 h2)
      · exact Or.inl (hbc ▸ h1)
    · rcases h2 with h2 | ⟨hbc, h2⟩
      · exact Or.inl (hab ▸ h2)
      · exact Or.inr ⟨hab.trans hbc, keyLtb_trans h1 h2⟩

theorem keyLtb_asymm {x y : Key} (h1 : keyLtb x y = true) :
    keyLtb y x = false := by
  by_contra hc
  have h2 : keyLtb y x = true := by
    cases hxy : keyLtb y x
    · exact absurd hxy hc
    · rfl
  have := keyLtb_trans h1 h2
  rw [keyLtb_irrefl] at this
  exact Bool.false_ne_true this

theorem keyLtb_connex : ∀ x y : Key, x ≠ y →
    keyLtb x y = true ∨ keyLtb y x = true
  | [], [], h => absurd rfl h
  | [], _ :: _, _ => Or.inl (by simp [keyLtb])
  | _ :: _, [], _ => Or.inr (by simp [keyLtb])
  | a :: as, b :: bs, h => by
    by_cases hab : a = b
    · subst hab
      have hne : as ≠ bs := fun hh => h (hh ▸ rfl)
      rcases keyLtb_connex as bs hne with hl | hr
      · exact Or.inl (by simp [keyLtb, hl])
      · exact Or.inr (by simp [keyLtb, hr])
    · rcases KeyPart.ltb_connex a b hab with hl | hr
      · exact Or.inl (by simp [keyLtb, hl])
      · exact Or.inr (by simp [keyLtb, hr])

theorem keyLtb_ne {x y : Key} (h : keyLtb x y = true) : x ≠ y := by
  intro he
  subst he
  rw [keyLtb_irrefl] at h
  exact Bool.false_ne_true h

/-! Point lookup, write and delete lemmas. -/

theorem kvGet_kvSet_self : ∀ (st : KV) (k : Key) (v : Val),
    kvGet (kvSet st k v) k = some v
  | [], k, v => by simp [kvSet, kvGet]
  | (k1, v1) :: rest, k, v => by
    by_cases hlt : keyLtb k k1 = true
    · simp [kvSet, hlt, kvGet]
    · by_cases he : k = k1
      · subst he
        simp [kvSet, keyLtb_irrefl, kvGet]
      · simp [kvSet, hlt, he, kvGet, kvGet_kvSet_self rest k v]

theorem kvGet_kvSet_ne : ∀ (st : KV) {k k' : Key} (v : Val), k' ≠ k →
    kvGet (kvSet st k v) k' = kvGet st k'
  | [], k, k', v, h => by simp [kvSet, kvGet, h]
  | (k1, v1) :: rest, k, k', v, h => by
    by_cases hlt : keyLtb k k1 = true
    · simp [kvSet, hlt, kvGet, h]
    · by_cases he : k = k1
      · subst he
        simp [kvSet, hlt, kvGet, h]
      · by_cases h1 : k' = k1
        · simp [kvSet, hlt, he, kvGet, h1]
        · simp [kvSet, hlt, he, kvGet, h1, kvGet_kvSet_ne rest v h]

theorem kvGet_kvSet_cases (st : KV) {k' k : Key} (v : Val) {w : Val}
    (h : kvGet (kvSet st k v) k' = some w) :
    (k' = k ∧ w = v) ∨ (k' ≠ k ∧ kvGet st k' = some w) := by
  by_cases he : k' = k
  · subst he
    rw [kvGet_kvSet_self] at h
    exact Or.inl ⟨rfl, (Option.some.injEq _ _ ▸ h).symm⟩
  · rw [kvGet_kvSet_ne st v he] at h
    exact Or.inr ⟨he, h⟩

theorem kvGet_kvDel_ne : ∀ (st : KV) {k k' : Key}, k' ≠ k →
    kvGet (kvDel st k) k' = kvGet st k'
  | [], _, _, _ => rfl
  | (k1, v1) :: rest, k, k', h => by
    by_cases he : k = k1
    · subst he
      simp [kvDel, kvGet, h]
    · by_cases h1 : k' = k1
      · simp [kvDel, he, kvGet, h1]
      · simp [kvDel, he, kvGet, h1, kvGet_kvDel_ne rest h]

theorem kvDel_none_mono : ∀ (st : KV) {k' : Key} (k : Key),
    kvGet st k' = none → kvGet (kvDel st k) k' = none
  | [], _, _, _ => rfl
  | (k1, v1) :: rest, k', k, h => by
    rw [kvGet] at h
    by_cases h1 : k' = k1
    · simp [h1] at h
    · rw [if_neg h1] at h
      by_cases he : k = k1
      · simpa [kvDel, he] using h
      · simp [kvDel, he, kvGet, h1, kvDel_none_mono rest k h]

theorem mem_of_kvGet : ∀ {st : KV} {k : Key} {v : Val},
    kvGet st k = some v → (k, v) ∈ st := by
  intro st
  induction st with
  | nil => intro k v h; simp [kvGet] at h
  | cons e rest ih =>
    intro k v h
    rw [kvGet] at h
    by_cases h1 : k = e.1
    · rw [if_pos h1] at h
      injection h with h
      have he : (k, v) = e := by
        cases e with
        | mk a b => exact Prod.mk.injEq .. ▸ ⟨h1, h.symm⟩
      rw [he]
      exact List.mem_cons_self e rest
    · rw [if_neg h1] at h
      exact List.mem_cons_of_mem _ (ih h)

theorem kvGet_none_of_not_mem_keys : ∀ {st : KV} {k : Key},
    k ∉ st.map Prod.fst → kvGet st k = none := by
  intro st
  induction st with
  | nil => intro k _; rfl
  | cons e rest ih =>
    intro k h
    rw [List.map_cons, List.mem_cons] at h
    push_neg at h
    rw [kvGet, if_neg h.1]
    exact ih h.2

theorem kvGet_of_mem : ∀ {st : KV} {k : Key} {v : Val}, NodupKeys st →
    (k, v) ∈ st → kvGet st k = some v := by
  intro st
  induction st with
  | nil => intro k v _ h; simp at h
  | cons e rest ih =>
    intro k v hnd h
    rw [NodupKeys, List.map_cons, List.nodup_cons] at hnd
    rcases List.mem_cons.mp h with he | hm
    · rw [← he, kvGet, if_pos rfl]
    · have hk1 : k ≠ e.1 := by
        intro hk
        exact hnd.1 (hk ▸ List.mem_map_of_mem Prod.fst hm)
      rw [kvGet, if_neg hk1]
      exact ih hnd.2 hm

theorem kvDel_sublist : ∀ (st : KV) (k : Key), (kvDel st k).Sublist st
  | [], _ => List.Sublist.refl []
  | (k1, v1) :: rest, k => by
    by_cases he : k = k1
    · simp only [kvDel, if_pos he]; exact List.sublist_cons_self (k1, v1) rest
    · simpa [kvDel, he] using List.Sublist.cons₂ (k1, v1) (kvDel_sublist rest k)

theorem nodup_kvDel {st : KV} (hnd : NodupKeys st) (k : Key) :
    NodupKeys (kvDel st k) :=
  List.Nodup.sublist (List.Sublist.map Prod.fst (kvDel_sublist st k)) hnd

theorem kvGet_kvDel_self {st : KV} (hnd : NodupKeys st) (k : Key) :
    kvGet (kvDel st k) k = none := by
  induction st with
  | nil => rfl
  | cons e rest ih =>
    rw [NodupKeys, List.map_cons, List.nodup_cons] at hnd
    by_cases he : k = e.1
    · rw [kvDel]
      simp only [he, if_pos rfl]
      exact kvGet_none_of_not_mem_keys (he ▸ hnd.1)
    · rw [kvDel, if_neg he, kvGet, if_neg he]
      exact ih hnd.2

theorem kvGet_kvDel_some {st : KV} (hnd : NodupKeys st) {k' k : Key} {v : Val}
    (h : kvGet (kvDel st k) k' = some v) : kvGet st k' = some v :=
  kvGet_of_mem hnd ((kvDel_sublist st k).mem (mem_of_kvGet h))

/-! Sortedness of the store. -/

theorem kvSet_head_cases : ∀ (st : KV) (k : Key) (v : Val) (b : Key × Val),
    (kvSet st k v).head? = some b → b = (k, v) ∨ st.head? = some b
  | [], k, v, b, h => by
    simp [kvSet] at h
    exact Or.inl h.symm
  | (k1, v1) :: rest, k, v, b, h => by
    by_cases hlt : keyLtb k k1 = true
    · simp [kvSet, hlt] at h
      exact Or.inl h.symm
    · by_cases he : k = k1
      · subst he
        simp [kvSet, keyLtb_irrefl] at h
        exact Or.inl h.symm
      · simp [kvSet, hlt, he] at h
        exact Or.inr (by simp [h])

theorem sorted_kvSet {st : KV} (k : Key) (v : Val) (hs : KVSorted st) :
    KVSorted (kvSet st k v) := by
  induction st with
  | nil => simp [kvSet, KVSorted]
  | cons e rest ih =>
    obtain ⟨k1, v1⟩ := e
    rw [KVSorted, List.chain'_cons'] at hs
    by_cases hlt : keyLtb k k1 = true
    · rw [kvSet.eq_def]
      simp only [if_pos hlt]
      rw [KVSorted, List.chain'_cons]
      exact ⟨hlt, List.chain'_cons'.mpr hs⟩
    · by_cases he : k = k1
      · rw [kvSet.eq_def]
        simp only [if_neg hlt, if_pos he]
        rw [KVSorted, List.chain'_cons']
        refine ⟨fun b hb => ?_, hs.2⟩
        exact he ▸ hs.1 b hb
      · rw [kvSet.eq_def]
        simp only [if_neg hlt, if_neg he]
        rw [KVSorted, List.chain'_cons']
        constructor
        · intro b hb
          rcases kvSet_head_cases rest k v b hb with hbk | hbr
          · subst hbk
            rcases keyLtb_connex k k1 he with hl | hr
            · exact absurd hl hlt
            · exact hr
          · exact hs.1 b hbr
        · exact ih hs.2

theorem sorted_pairwise {st : KV} (hs : KVSorted st) :
    st.Pairwise (fun a b => keyLtb a.1 b.1 = true) := by
  haveI : IsTrans (Key × Val) (fun a b => keyLtb a.1 b.1 = true) :=
    ⟨fun _ _ _ h1 h2 => keyLtb_trans h1 h2⟩
  exact List.chain'_iff_pairwise.mp hs

theorem nodup_of_sorted {st : KV} (hs : KVSorted st) : NodupKeys st :=
  List.Pairwise.map Prod.fst (fun _ _ h => keyLtb_ne h) (sorted_pairwise hs)

/-! Prefix-scan lemmas. -/

theorem kvList_kvSet_notPre : ∀ (st : KV) {p k : Key} (v : Val),
    keyPre p k = false → kvList (kvSet st k v) p = kvList st p
  | [], p, k, v, h => by simp [kvSet, kvList, List.filter_cons, h]
  | (k1, v1) :: rest, p, k, v, h => by
    by_cases hlt : keyLtb k k1 = true
    · simp [kvSet, hlt, kvList, List.filter_cons, h]
    · by_cases he : k = k1
      · subst he
        simp [kvSet, keyLtb_irrefl, kvList, List.filter_cons, h]
      · have ih := kvList_kvSet_notPre rest (p := p) (k := k) v h
        simp only [kvList] at ih
        simp [kvSet, hlt, he, kvList, List.filter_cons, ih]

theorem kvList_kvSet_app : ∀ (st : KV) {p k : Key} (v : Val), KVSorted st →
    keyPre p k = true →
    (∀ e ∈ st, keyPre p e.1 = true → keyLtb e.1 k = true) →
    kvList (kvSet st k v) p = kvList st p ++ [(k, v)]
  | [], p, k, v, _, hp, _ => by simp [kvSet, kvList, List.filter_cons, hp]
  | (k1, v1) :: rest, p, k, v, hs, hp, hmax => by
    by_cases hlt : keyLtb k k1 = true
    · have hnil : ∀ e ∈ (k1, v1) :: rest, ¬(keyPre p e.1 = true) := by
        intro e he hpe
        have hek := hmax e he hpe
        rcases List.mem_cons.mp he with h1 | h1
        · subst h1
          have := keyLtb_trans hlt hek
          rw [keyLtb_irrefl] at this
          exact Bool.false_ne_true this
        · have h12 := (List.pairwise_cons.mp (sorted_pairwise hs)).1 e h1
          have := keyLtb_trans (keyLtb_trans hlt h12) hek
          rw [keyLtb_irrefl] at this
          exact Bool.false_ne_true this
      have hfn : kvList ((k1, v1) :: rest) p = [] := by
        rw [kvList, List.filter_eq_nil_iff]
        intro a ha
        simpa using hnil a ha
      rw [kvSet.eq_def]
      simp only [if_pos hlt]
      rw [kvList, List.filter_cons, hfn]
      simp [hp, kvList] at hfn ⊢
      exact hfn
    · by_cases he : k = k1
      · exfalso
        have := hmax (k1, v1) (List.mem_cons_self _ _) (by rw [← he]; exact hp)
        rw [← he, keyLtb_irrefl] at this
        exact Bool.false_ne_true this
      · have ih := kvList_kvSet_app rest v
          (List.Chain'.tail hs) hp
          (fun e hm hpe => hmax e (List.mem_cons_of_mem _ hm) hpe)
        rw [kvSet.eq_def]
        simp only [if_neg hlt, if_neg he]
        rw [kvList, List.filter_cons]
        rw [kvList] at ih
        by_cases hk1 : keyPre p k1 = true
        · simp [hk1, ih, kvList, List.filter_cons]
        · simp [hk1, ih, kvList, List.filter_cons]

theorem keyPre_str_idx {t : String} (h : t ≠ "__indexes") (t2 f : String)
    (vp ip : KeyPart) : keyPre [KeyPart.str t] (idxKey t2 f vp ip) = false := by
  simp [keyPre, idxKey, h]

theorem keyPre_str_rec (t : String) (ip : KeyPart) :
    keyPre [KeyPart.str t] [KeyPart.str t, ip] = true := by
  simp [keyPre]

/-! Frame lemmas: which keys the index-writing loops can touch. -/

theorem cifeWrite_det {t : String} {value : Obj} {k : Key} {w w' : Val}
    (h1 : cifeWrite t value k w) (h2 : cifeWrite t value k w') : w = w' := by
  obtain ⟨f, v, vp, idv, ip, hk, _, _, hid, _, hw⟩ := h1
  obtain ⟨f', v', vp', idv', ip', hk', _, _, hid', _, hw'⟩ := h2
  rw [hk] at hk'
  simp only [idxKey, List.cons.injEq, KeyPart.str.injEq] at hk'
  have hf : f = f' := hk'.2.2.1
  subst hf
  rw [hid] at hid'
  injection hid' with hid'
  rw [hw, hw', hid']

theorem cifeGo_frame {t : String} {value : Obj} :
    ∀ (l : List (Key × Val)) (st : KV) (k : Key),
      kvGet (cifeGo t value l st).1 k = kvGet st k ∨
        ∃ w, cifeWrite t value k w ∧ kvGet (cifeGo t value l st).1 k = some w
  | [], _, _ => Or.inl rfl
  | (km, mv) :: rest, st, k => by
    cases mv with
    | obj o => exact Or.inl rfl
    | prim tv =>
      cases tv with
      | num n => exact Or.inl rfl
      | bool b => exact Or.inl rfl
      | date d => exact Or.inl rfl
      | str f =>
        cases hv : (objGet value f).bind TSVal.toKeyPart with
        | none => simp [cifeGo, hv]
        | some vp =>
          cases hid : objGet value "id" with
          | none => simp [cifeGo, hv, hid]
          | some idv =>
            cases hip : idv.toKeyPart with
            | none => simp [cifeGo, hv, hid, hip]
            | some ip =>
              simp only [cifeGo, hv, hid, hip]
              rcases cifeGo_frame rest (kvSet st (idxKey t f vp ip) (.prim idv)) k
                with hun | ⟨w, hw, hg⟩
              · rw [hun]
                by_cases hk : k = idxKey t f vp ip
                · subst hk
                  rw [kvGet_kvSet_self]
                  refine Or.inr ⟨Val.prim idv, ⟨f, ?_⟩, rfl⟩
                  rcases Option.bind_eq_some.mp hv with ⟨v, hv1, hv2⟩
                  exact ⟨v, vp, idv, ip, rfl, hv1, hv2, hid, hip, rfl⟩
                · rw [kvGet_kvSet_ne st _ hk]
                  exact Or.inl rfl
              · exact Or.inr ⟨w, hw, hg⟩

theorem cifeGo_err {t : String} {value : Obj} :
    ∀ (l : List (Key × Val)) (st : KV),
      (cifeGo t value l st).2 = none ∨ (cifeGo t value l st).2 = some .invalidKey
  | [], _ => Or.inl rfl
  | (km, mv) :: rest, st => by
    cases mv with
    | obj o => exact Or.inr rfl
    | prim tv =>
      cases tv with
      | num n => exact Or.inr rfl
      | bool b => exact Or.inr rfl
      | date d => exact Or.inr rfl
      | str f =>
        cases hv : (objGet value f).bind TSVal.toKeyPart with
        | none => simp [cifeGo, hv]
        | some vp =>
          cases hid : objGet value "id" with
          | none => simp [cifeGo, hv, hid]
          | some idv =>
            cases hip : idv.toKeyPart with
            | none => simp [cifeGo, hv, hid, hip]
            | some ip =>
              simp only [cifeGo, hv, hid, hip]
              exact cifeGo_err rest _

theorem cifeGo_success {t : String} {value : Obj} :
    ∀ (l : List (Key × Val)) (st st2 : KV),
      cifeGo t value l st = (st2, none) →
      ∀ km mv, (km, mv) ∈ l →
        ∃ f, mv = Val.prim (.str f) ∧
          ∃ v vp idv ip, objGet value f = some v ∧ v.toKeyPart = some vp ∧
            objGet value "id" = some idv ∧ idv.toKeyPart = some ip ∧
            kvGet st2 (idxKey t f vp ip) = some (Val.prim idv)
  | [], _, _, _, _, _, hm => by simp at hm
  | (km0, mv0) :: rest, st, st2, hsucc, km, mv, hm => by
    cases mv0 with
    | obj o => simp [cifeGo] at hsucc
    | prim tv =>
      cases tv with
      | num n => simp [cifeGo] at hsucc
      | bool b => simp [cifeGo] at hsucc
      | date d => simp [cifeGo] at hsucc
      | str f0 =>
        cases hv : (objGet value f0).bind TSVal.toKeyPart with
        | none => simp [cifeGo, hv] at hsucc
        | some vp0 =>
          cases hid : objGet value "id" with
          | none => simp [cifeGo, hv, hid] at hsucc
          | some idv0 =>
            cases hip : idv0.toKeyPart with
            | none => simp [cifeGo, hv, hid, hip] at hsucc
            | some ip0 =>
              simp only [cifeGo, hv, hid, hip] at hsucc
              rcases List.mem_cons.mp hm with hhd | htl
              · have hpair : km = km0 ∧ mv = Val.prim (.str f0) := by
                  have := Prod.mk.injEq km mv km0 (Val.prim (.str f0)) ▸ hhd
                  exact ⟨this.1, this.2⟩
                refine ⟨f0, hpair.2, ?_⟩
                rcases Option.bind_eq_some.mp hv with ⟨v0, hv1, hv2⟩
                refine ⟨v0, vp0, idv0, ip0, hv1, hv2, rfl, hip, ?_⟩
                have hst1 : kvGet (kvSet st (idxKey t f0 vp0 ip0) (.prim idv0))
                    (idxKey t f0 vp0 ip0) = some (Val.prim idv0) :=
                  kvGet_kvSet_self ..
                rcases cifeGo_frame rest (kvSet st (idxKey t f0 vp0 ip0) (.prim idv0))
                    (idxKey t f0 vp0 ip0) with hun | ⟨w, hw, hg⟩
                · rw [hsucc] at hun
                  rw [hun, hst1]
                · have hcw : cifeWrite t value (idxKey t f0 vp0 ip0) (Val.prim idv0) :=
                    ⟨f0, v0, vp0, idv0, ip0, rfl, hv1, hv2, hid, hip, rfl⟩
                  have hww := cifeWrite_det hw hcw
                  rw [hsucc] at hg
                  rw [hg, hww]
              · exact hid ▸ cifeGo_success rest _ st2 hsucc km mv htl

theorem cifeGo_sorted {t : String} {value : Obj} :
    ∀ (l : List (Key × Val)) (st : KV), KVSorted st →
      KVSorted (cifeGo t value l st).1
  | [], _, hs => hs
  | (km0, mv0) :: rest, st, hs => by
    cases mv0 with
    | obj o => exact hs
    | prim tv =>
      cases tv with
      | num n => exact hs
      | bool b => exact hs
      | date d => exact hs
      | str f0 =>
        cases hv : (objGet value f0).bind TSVal.toKeyPart with
        | none => simpa [cifeGo, hv] using hs
        | some vp0 =>
          cases hid : objGet value "id" with
          | none => simpa [cifeGo, hv, hid] using hs
          | some idv0 =>
            cases hip : idv0.toKeyPart with
            | none => simpa [cifeGo, hv, hid, hip] using hs
            | some ip0 =>
              simp only [cifeGo, hv, hid, hip]
              exact cifeGo_sorted rest _ (sorted_kvSet _ _ hs)

theorem cifeGo_kvList {t t2 : String} {value : Obj} (ht : t2 ≠ "__indexes") :
    ∀ (l : List (Key × Val)) (st : KV),
      kvList (cifeGo t value l st).1 [KeyPart.str t2] = kvList st [KeyPart.str t2]
  | [], _ => rfl
  | (km0, mv0) :: rest, st => by
    cases mv0 with
    | obj o => rfl
    | prim tv =>
      cases tv with
      | num n => rfl
      | bool b => rfl
      | date d => rfl
      | str f0 =>
        cases hv : (objGet value f0).bind TSVal.toKeyPart with
        | none => simp [cifeGo, hv]
        | some vp0 =>
          cases hid : objGet value "id" with
          | none => simp [cifeGo, hv, hid]
          | some idv0 =>
            cases hip : idv0.toKeyPart with
            | none => simp [cifeGo, hv, hid, hip]
            | some ip0 =>
              simp only [cifeGo, hv, hid, hip]
              rw [cifeGo_kvList ht rest _,
                kvList_kvSet_notPre st _ (keyPre_str_idx ht ..)]

theorem backfillGo_frame {t f : String} :
    ∀ (l : List Val) (st : KV) (k : Key),
      kvGet (backfillGo t f l st).1 k = kvGet st k ∨
        ∃ o w, Val.obj o ∈ l ∧ bfWrite t f o k w ∧
          kvGet (backfillGo t f l st).1 k = some w
  | [], _, _ => Or.inl rfl
  | v0 :: rest, st, k => by
    cases v0 with
    | prim tv =>
      rcases backfillGo_frame rest st k with hun | ⟨o, w, hm, hw, hg⟩
      · exact Or.inl hun
      · exact Or.inr ⟨o, w, List.mem_cons_of_mem _ hm, hw, hg⟩
    | obj o0 =>
      cases hof : objGet o0 f with
      | none =>
        simp only [backfillGo, hof]
        rcases backfillGo_frame rest st k with hun | ⟨o, w, hm, hw, hg⟩
        · exact Or.inl hun
        · exact Or.inr ⟨o, w, List.mem_cons_of_mem _ hm, hw, hg⟩
      | some fv =>
        by_cases htr : fv.truthy = true
        · cases hvp : fv.toKeyPart with
          | none => simp [backfillGo, hof, htr, hvp]
          | some vp =>
            cases hid : objGet o0 "id" with
            | none => simp [backfillGo, hof, htr, hvp, hid]
            | some idv =>
              cases hip : idv.toKeyPart with
              | none => simp [backfillGo, hof, htr, hvp, hid, hip]
              | some ip =>
                simp only [backfillGo, hof, htr, if_true, hvp, hid, hip]
                rcases backfillGo_frame rest
                    (kvSet st (idxKey t f vp ip) (.prim idv)) k
                  with hun | ⟨o, w, hm, hw, hg⟩
                · rw [hun]
                  by_cases hk : k = idxKey t f vp ip
                  · subst hk
                    rw [kvGet_kvSet_self]
                    exact Or.inr ⟨o0, Val.prim idv, List.mem_cons_self _ _,
                      ⟨fv, vp, idv, ip, hof, htr, hvp, hid, hip, rfl, rfl⟩, rfl⟩
                  · rw [kvGet_kvSet_ne st _ hk]
                    exact Or.inl rfl
                · exact Or.inr ⟨o, w, List.mem_cons_of_mem _ hm, hw, hg⟩
        · simp only [backfillGo, hof, htr, if_false]
          rcases backfillGo_frame rest st k with hun | ⟨o, w, hm, hw, hg⟩
          · exact Or.inl hun
          · exact Or.inr ⟨o, w, List.mem_cons_of_mem _ hm, hw, hg⟩

theorem backfillGo_sorted {t f : String} :
    ∀ (l : List Val) (st : KV), KVSorted st → KVSorted (backfillGo t f l st).1
  | [], _, hs => hs
  | v0 :: rest, st, hs => by
    cases v0 with
    | prim tv => exact backfillGo_sorted rest st hs
    | obj o0 =>
      cases hof : objGet o0 f with
      | none =>
        simp only [backfillGo, hof]
        exact backfillGo_sorted rest st hs
      | some fv =>
        by_cases htr : fv.truthy = true
        · cases hvp : fv.toKeyPart with
          | none => simpa [backfillGo, hof, htr, hvp] using hs
          | some vp =>
            cases hid : objGet o0 "id" with
            | none => simpa [backfillGo, hof, htr, hvp, hid] using hs
            | some idv =>
              cases hip : idv.toKeyPart with
              | none => simpa [backfillGo, hof, htr, hvp, hid, hip] using hs
              | some ip =>
                simp only [backfillGo, hof, htr, if_true, hvp, hid, hip]
                exact backfillGo_sorted rest _ (sorted_kvSet _ _ hs)
        · simp only [backfillGo, hof, htr, if_false]
          exact backfillGo_sorted rest st hs

theorem backfillGo_success {t f : String} :
    ∀ (l : List Val) (st st2 : KV),
      backfillGo t f l st = (st2, none) →
      (∀ o1 o2 idv1 idv2, Val.obj o1 ∈ l → Val.obj o2 ∈ l →
        objGet o1 "id" = some idv1 → objGet o2 "id" = some idv2 →
        idv1.toKeyPart = idv2.toKeyPart → o1 = o2) →
      ∀ o fv, Val.obj o ∈ l → objGet o f = some fv → fv.truthy = true →
        ∃ vp idv ip, fv.toKeyPart = some vp ∧ objGet o "id" = some idv ∧
          idv.toKeyPart = some ip ∧
          kvGet st2 (idxKey t f vp ip) = some (Val.prim idv)
  | [], _, _, _, _, _, _, hm, _, _ => by simp at hm
  | v0 :: rest, st, st2, hsucc, hdet, o, fv, hm, hof, htru => by
    cases v0 with
    | prim tv =>
      have hmr : Val.obj o ∈ rest := by
        rcases List.mem_cons.mp hm with hh | ht
        · exact absurd hh (by simp)
        · exact ht
      exact backfillGo_success rest st st2 hsucc
        (fun o1 o2 i1 i2 m1 m2 e1 e2 ee =>
          hdet o1 o2 i1 i2 (List.mem_cons_of_mem _ m1)
            (List.mem_cons_of_mem _ m2) e1 e2 ee) o fv hmr hof htru
    | obj o0 =>
      cases hof0 : objGet o0 f with
      | none =>
        simp only [backfillGo, hof0] at hsucc
        have hmr : Val.obj o ∈ rest := by
          rcases List.mem_cons.mp hm with hh | ht
          · exfalso
            have ho : o = o0 := by injection hh
            rw [ho, hof0] at hof
            exact Option.noConfusion hof
          · exact ht
        exact backfillGo_success rest st st2 hsucc
          (fun o1 o2 i1 i2 m1 m2 e1 e2 ee =>
            hdet o1 o2 i1 i2 (List.mem_cons_of_mem _ m1)
              (List.mem_cons_of_mem _ m2) e1 e2 ee) o fv hmr hof htru
      | some fv0 =>
        by_cases htr0 : fv0.truthy = true
        · cases hvp0 : fv0.toKeyPart with
          | none => simp [backfillGo, hof0, htr0, hvp0] at hsucc
          | some vp0 =>
            cases hid0 : objGet o0 "id" with
            | none => simp [backfillGo, hof0, htr0, hvp0, hid0] at hsucc
            | some idv0 =>
              cases hip0 : idv0.toKeyPart with
              | none => simp [backfillGo, hof0, htr0, hvp0, hid0, hip0] at hsucc
              | some ip0 =>
                simp only [backfillGo, hof0, htr0, if_true, hvp0, hid0, hip0]
                  at hsucc
                rcases List.mem_cons.mp hm with hh | ht
                · have ho : o = o0 := by injection hh
                  subst ho
                  rw [hof] at hof0
                  injection hof0 with hfv
                  subst hfv
                  refine ⟨vp0, idv0, ip0, hvp0, hid0, hip0, ?_⟩
                  have hst1 : kvGet (kvSet st (idxKey t f vp0 ip0) (.prim idv0))
                      (idxKey t f vp0 ip0) = some (Val.prim idv0) :=
                    kvGet_kvSet_self ..
                  rcases backfillGo_frame rest
                      (kvSet st (idxKey t f vp0 ip0) (.prim idv0))
                      (idxKey t f vp0 ip0) with hun | ⟨o2, w, hm2, hw2, hg2⟩
                  · rw [hsucc] at hun
                    rw [hun, hst1]
                  · obtain ⟨fv2, vp2, idv2, ip2, hof2, htr2, hvp2, hid2, hip2,
                      hk2, hw2e⟩ := hw2
                    have hks := hk2
                    simp only [idxKey, List.cons.injEq, KeyPart.str.injEq] at hks
                    have hip2' : ip2 = ip0 := hks.2.2.2.2.1.symm
                    have heq : o2 = o := by
                      refine hdet o2 o idv2 idv0 (List.mem_cons_of_mem _ hm2)
                        (List.mem_cons_self _ _) hid2 hid0 ?_
                      rw [hip2, hip0, hip2']
                    rw [heq] at hid2
                    rw [hid0] at hid2
                    injection hid2 with hid2
                    rw [hsucc] at hg2
                    rw [hg2, hw2e, hid2]
                · exact backfillGo_success rest _ st2 hsucc
                    (fun o1 o2 i1 i2 m1 m2 e1 e2 ee =>
                      hdet o1 o2 i1 i2 (List.mem_cons_of_mem _ m1)
                        (List.mem_cons_of_mem _ m2) e1 e2 ee) o fv ht hof htru
        · simp only [backfillGo, hof0, htr0, if_false] at hsucc
          have hmr : Val.obj o ∈ rest := by
            rcases List.mem_cons.mp hm with hh | ht
            · exfalso
              have ho : o = o0 := by injection hh
              rw [ho, hof0] at hof
              injection hof with hfv
              rw [hfv] at htr0
              exact htr0 htru
            · exact ht
          exact backfillGo_success rest st st2 hsucc
            (fun o1 o2 i1 i2 m1 m2 e1 e2 ee =>
              hdet o1 o2 i1 i2 (List.mem_cons_of_mem _ m1)
                (List.mem_cons_of_mem _ m2) e1 e2 ee) o fv hmr hof htru

/-! Key-shape facts and their consequences for the loops. -/

theorem idxKey_ne_rec (t2 f : String) (vp ip : KeyPart) (t3 : String)
    (p : KeyPart) : idxKey t2 f vp ip ≠ [KeyPart.str t3, p] := by
  simp [idxKey]

theorem idxKey_ne_mrk (t2 f : String) (vp ip : KeyPart) (t3 f3 : String) :
    idxKey t2 f vp ip ≠ mrkKey t3 f3 := by
  simp [idxKey, mrkKey]

theorem mrkKey_ne_rec (t f t3 : String) (p : KeyPart) :
    mrkKey t f ≠ [KeyPart.str t3, p] := by
  simp [mrkKey]

theorem cifeGo_get_rec {t : String} {value : Obj} {l : List (Key × Val)}
    {st : KV} (t3 : String) (p : KeyPart) :
    kvGet (cifeGo t value l st).1 [KeyPart.str t3, p] =
      kvGet st [KeyPart.str t3, p] := by
  rcases @cifeGo_frame t value l st [KeyPart.str t3, p]
    with hun | ⟨w, hw, _⟩
  · exact hun
  · obtain ⟨f, v, vp, idv, ip, hk, _⟩ := hw
    exact absurd hk.symm (idxKey_ne_rec t f vp ip t3 p)

theorem cifeGo_get_mrk {t : String} {value : Obj} {l : List (Key × Val)}
    {st : KV} (t3 f3 : String) :
    kvGet (cifeGo t value l st).1 (mrkKey t3 f3) = kvGet st (mrkKey t3 f3) := by
  rcases @cifeGo_frame t value l st (mrkKey t3 f3)
    with hun | ⟨w, hw, _⟩
  · exact hun
  · obtain ⟨f, v, vp, idv, ip, hk, _⟩ := hw
    exact absurd hk.symm (idxKey_ne_mrk t f vp ip t3 f3)

theorem backfillGo_get_rec {t f : String} {l : List Val} {st : KV}
    (t3 : String) (p : KeyPart) :
    kvGet (backfillGo t f l st).1 [KeyPart.str t3, p] =
      kvGet st [KeyPart.str t3, p] := by
  rcases backfillGo_frame (t := t) (f := f) l st [KeyPart.str t3, p]
    with hun | ⟨o, w, _, hw, _⟩
  · exact hun
  · obtain ⟨fv, vp, idv, ip, _, _, _, _, _, hk, _⟩ := hw
    exact absurd hk.symm (idxKey_ne_rec t f vp ip t3 p)

theorem backfillGo_get_mrk {t f : String} {l : List Val} {st : KV}
    (t3 f3 : String) :
    kvGet (backfillGo t f l st).1 (mrkKey t3 f3) = kvGet st (mrkKey t3 f3) := by
  rcases backfillGo_frame (t := t) (f := f) l st (mrkKey t3 f3)
    with hun | ⟨o, w, _, hw, _⟩
  · exact hun
  · obtain ⟨fv, vp, idv, ip, _, _, _, _, _, hk, _⟩ := hw
    exact absurd hk.symm (idxKey_ne_mrk t f vp ip t3 f3)

/-! Reachable-state invariants. -/

theorem keyPre_mrk (t f : String) :
    keyPre [KeyPart.str "__indexes_for", KeyPart.str t] (mrkKey t f) = true := by
  simp [keyPre, mrkKey]

theorem ginv_write_cife {st st2 : KV} {t : String} {ip : KeyPart} {e : Obj}
    {idv : TSVal} (hg : GInv st) (hid : objGet e "id" = some idv)
    (hip : idv.toKeyPart = some ip)
    (hc : create_indexes_for_entry (kvSet st [KeyPart.str t, ip] (Val.obj e))
      t e = (st2, none)) : GInv st2 := by
  obtain ⟨hsort, hshape, hrecwf, hmrkwf, hidx⟩ := hg
  rw [create_indexes_for_entry] at hc
  set st1 := kvSet st [KeyPart.str t, ip] (Val.obj e) with hst1
  set l := kvList st1 [KeyPart.str "__indexes_for", KeyPart.str t] with hl
  have hst2 : (cifeGo t e l st1).1 = st2 := by rw [hc]
  have hrec21 : ∀ (t3 : String) (p : KeyPart),
      kvGet st2 [KeyPart.str t3, p] = kvGet st1 [KeyPart.str t3, p] :=
    fun t3 p => by rw [← hst2]; exact cifeGo_get_rec t3 p
  have hmrk21 : ∀ (t3 f3 : String),
      kvGet st2 (mrkKey t3 f3) = kvGet st (mrkKey t3 f3) := by
    intro t3 f3
    rw [← hst2, cifeGo_get_mrk t3 f3, hst1,
      kvGet_kvSet_ne st _ (mrkKey_ne_rec t3 f3 t ip)]
  refine ⟨?_, ?_, ?_, ?_, ?_⟩
  · rw [← hst2]
    exact cifeGo_sorted l st1 (sorted_kvSet _ _ hsort)
  · intro k o hk
    rcases (hst2 ▸ cifeGo_frame l st1 k) with hun | ⟨w, hw, hgw⟩
    · rw [hun] at hk
      rcases kvGet_kvSet_cases st _ hk with ⟨hke, _⟩ | ⟨_, hold⟩
      · exact ⟨t, ip, hke⟩
      · exact hshape k o hold
    · rw [hgw] at hk
      obtain ⟨_, _, _, _, _, _, _, _, _, _, hwp⟩ := hw
      rw [hwp] at hk
      exact absurd hk (by simp)
  · intro t3 p o hk
    rw [hrec21 t3 p] at hk
    rcases kvGet_kvSet_cases st _ hk with ⟨hke, hve⟩ | ⟨_, hold⟩
    · have hoe : o = e := Val.obj.inj hve
      have hpe : p = ip := by
        simp only [List.cons.injEq] at hke
        exact hke.2.1
      exact ⟨idv, hoe ▸ hid, hpe ▸ hip⟩
    · exact hrecwf t3 p o hold
  · intro t3 f3 v hk
    rw [hmrk21 t3 f3] at hk
    exact hmrkwf t3 f3 v hk
  · intro t3 p3 o3 f v vp hrec hreg hov htru hvp
    have hrec1 : kvGet st1 [KeyPart.str t3, p3] = some (Val.obj o3) := by
      rw [← hrec21 t3 p3]
      exact hrec
    rw [hmrk21 t3 f] at hreg
    by_cases hk : ([KeyPart.str t3, p3] : Key) = [KeyPart.str t, ip]
    · have hte : t3 = t := by
        simp only [List.cons.injEq, KeyPart.str.injEq] at hk
        exact hk.1
      have hpe : p3 = ip := by
        simp only [List.cons.injEq] at hk
        exact hk.2.1
      subst hte
      subst hpe
      have hoe : o3 = e := by
        have hself : kvGet st1 [KeyPart.str t3, p3] = some (Val.obj e) :=
          kvGet_kvSet_self ..
        rw [hrec1] at hself
        injection hself with hself
        injection hself
      subst hoe
      obtain ⟨mv, hmv⟩ := Option.isSome_iff_exists.mp hreg
      have hmve : mv = Val.prim (.str f) := hmrkwf t3 f mv hmv
      subst hmve
      have hmv1 : kvGet st1 (mrkKey t3 f) = some (Val.prim (.str f)) := by
        rw [hst1, kvGet_kvSet_ne st _ (mrkKey_ne_rec t3 f t3 p3)]
        exact hmv
      have hmem : (mrkKey t3 f, Val.prim (.str f)) ∈ l := by
        rw [hl, kvList]
        exact List.mem_filter.mpr ⟨mem_of_kvGet hmv1, keyPre_mrk t3 f⟩
      obtain ⟨f0, hf0, v0, vp0, idv0, ip0, hv0, hvp0, hid0, hip0, hkv⟩ :=
        cifeGo_success l st1 st2 hc (mrkKey t3 f) (Val.prim (.str f)) hmem
      have hff : f0 = f := by
        injection hf0 with hf0
        injection hf0 with hf0
        exact hf0.symm
      subst hff
      have hidv : idv = idv0 := Option.some.inj (hid.symm.trans hid0)
      have hipP : idv0.toKeyPart = some p3 := by rw [← hidv]; exact hip
      have hip0p3 : ip0 = p3 := Option.some.inj (hip0.symm.trans hipP)
      have hvv : v = v0 := Option.some.inj (hov.symm.trans hv0)
      have hvpP : v0.toKeyPart = some vp := by rw [← hvv]; exact hvp
      have hvp0vp : vp0 = vp := Option.some.inj (hvp0.symm.trans hvpP)
      rw [hvp0vp, hip0p3] at hkv
      exact ⟨idv0, hid0, hipP, hkv⟩
    · have hold : kvGet st [KeyPart.str t3, p3] = some (Val.obj o3) := by
        rw [hst1, kvGet_kvSet_ne st _ hk] at hrec1
        exact hrec1
      obtain ⟨idv3, hid3, hip3, hkv3⟩ :=
        hidx t3 p3 o3 f v vp hold (Option.isSome_iff_exists.mpr
          (Option.isSome_iff_exists.mp hreg)) hov htru hvp
      refine ⟨idv3, hid3, hip3, ?_⟩
      rcases (hst2 ▸ cifeGo_frame l st1 (idxKey t3 f vp p3))
        with hun | ⟨w, hw, hgw⟩
      · rw [hun, hst1,
          kvGet_kvSet_ne st _ (idxKey_ne_rec t3 f vp p3 t ip)]
        exact hkv3
      · exfalso
        obtain ⟨f', v', vp', idv', ip', hk', hv', hvp', hid', hip', hw'⟩ := hw
        have hkc := hk'
        simp only [idxKey, List.cons.injEq, KeyPart.str.injEq] at hkc
        have ht3 : t3 = t := hkc.2.1
        have hip'3 : ip' = p3 := hkc.2.2.2.2.1.symm
        rw [hid] at hid'
        have hidve : idv' = idv := (Option.some.inj hid').symm
        have hii : ip = ip' := Option.some.inj (hip.symm.trans (hidve ▸ hip'))
        exact hk (by rw [ht3, hii, hip'3])

theorem mem_entries_rec {st : KV} (hnd : NodupKeys st) (hsh : ObjShape st)
    (hwf : RecWF st) {t : String} {o : Obj}
    (hm : Val.obj o ∈ get_all_entries st t none) :
    ∃ ip1 idv, kvGet st [KeyPart.str t, ip1] = some (Val.obj o) ∧
      objGet o "id" = some idv ∧ idv.toKeyPart = some ip1 := by
  rw [get_all_entries, kvListN, kvList] at hm
  obtain ⟨e, he, hev⟩ := List.mem_map.mp hm
  obtain ⟨hest, hpre⟩ := List.mem_filter.mp he
  have hget : kvGet st e.1 = some (Val.obj o) := by
    have : e = (e.1, Val.obj o) := by
      rw [← hev]
    exact kvGet_of_mem hnd (this ▸ hest)
  obtain ⟨t1, ip1, hk1⟩ := hsh e.1 o hget
  rw [hk1] at hpre
  have ht1 : t = t1 := by
    simpa [keyPre] using hpre
  rw [hk1, ← ht1] at hget
  obtain ⟨idv, hidv, hipv⟩ := hwf t ip1 o hget
  exact ⟨ip1, idv, hget, hidv, hipv⟩

theorem ginv_create_index {st st2 : KV} {t f : String} (hg : GInv st)
    (hc : create_index st t f = (st2, none)) : GInv st2 := by
  obtain ⟨hsort, hshape, hrecwf, hmrkwf, hidx⟩ := hg
  by_cases hm : (kvGet st (mrkKey t f)).isSome = true
  · rw [create_index, if_pos hm] at hc
    have : st = st2 := congrArg Prod.fst hc
    exact this ▸ ⟨hsort, hshape, hrecwf, hmrkwf, hidx⟩
  · rw [create_index, if_neg hm] at hc
    set st1 := kvSet st (mrkKey t f) (Val.prim (.str f)) with hst1
    set lv := get_all_entries st1 t none with hlv
    have hsort1 : KVSorted st1 := sorted_kvSet _ _ hsort
    have hnd1 : NodupKeys st1 := nodup_of_sorted hsort1
    have hshape1 : ObjShape st1 := by
      intro k o hk
      rcases kvGet_kvSet_cases st _ hk with ⟨_, hve⟩ | ⟨_, hold⟩
      · exact absurd hve (by simp)
      · exact hshape k o hold
    have hrec1eq : ∀ (t3 : String) (p : KeyPart),
        kvGet st1 [KeyPart.str t3, p] = kvGet st [KeyPart.str t3, p] :=
      fun t3 p =>
        kvGet_kvSet_ne st _ (Ne.symm (mrkKey_ne_rec t f t3 p))
    have hrecwf1 : RecWF st1 := by
      intro t3 p o hk
      rw [hrec1eq t3 p] at hk
      exact hrecwf t3 p o hk
    have hdet : ∀ o1 o2 idv1 idv2, Val.obj o1 ∈ lv → Val.obj o2 ∈ lv →
        objGet o1 "id" = some idv1 → objGet o2 "id" = some idv2 →
        idv1.toKeyPart = idv2.toKeyPart → o1 = o2 := by
      intro o1 o2 idv1 idv2 hm1 hm2 hi1 hi2 hee
      obtain ⟨ip1, idv1', hg1, hi1', hp1⟩ := mem_entries_rec hnd1 hshape1 hrecwf1 hm1
      obtain ⟨ip2, idv2', hg2, hi2', hp2⟩ := mem_entries_rec hnd1 hshape1 hrecwf1 hm2
      have he1 : idv1' = idv1 := Option.some.inj (hi1'.symm.trans hi1)
      have he2 : idv2' = idv2 := Option.some.inj (hi2'.symm.trans hi2)
      rw [he1] at hp1
      rw [he2] at hp2
      have hipp : ip1 = ip2 := by
        have := (hp1.symm.trans (hee.trans hp2))
        exact Option.some.inj this
      rw [hipp] at hg1
      have := hg1.symm.trans hg2
      injection this with h2
      injection h2
    have hst2 : (backfillGo t f lv st1).1 = st2 := by rw [hc]
    have hmrk21 : ∀ (t3 f3 : String),
        kvGet st2 (mrkKey t3 f3) = kvGet st1 (mrkKey t3 f3) :=
      fun t3 f3 => by rw [← hst2]; exact backfillGo_get_mrk t3 f3
    have hrec21 : ∀ (t3 : String) (p : KeyPart),
        kvGet st2 [KeyPart.str t3, p] = kvGet st [KeyPart.str t3, p] :=
      fun t3 p => by rw [← hst2, backfillGo_get_rec t3 p]; exact hrec1eq t3 p
    refine ⟨?_, ?_, ?_, ?_, ?_⟩
    · rw [← hst2]
      exact backfillGo_sorted lv st1 hsort1
    · intro k o hk
      rcases (hst2 ▸ backfillGo_frame lv st1 k) with hun | ⟨o0, w, _, hw, hgw⟩
      · rw [hun] at hk
        exact hshape1 k o hk
      · rw [hgw] at hk
        obtain ⟨_, _, _, _, _, _, _, _, _, _, hwp⟩ := hw
        rw [hwp] at hk
        exact absurd hk (by simp)
    · intro t3 p o hk
      rw [hrec21 t3 p] at hk
      exact hrecwf t3 p o hk
    · intro t3 f3 v hk
      rw [hmrk21 t3 f3] at hk
      rcases kvGet_kvSet_cases st _ hk with ⟨hke, hve⟩ | ⟨_, hold⟩
      · have hff : f3 = f := by
          simp only [mrkKey, List.cons.injEq, KeyPart.str.injEq] at hke
          exact hke.2.2.1
        rw [hve, hff]
      · exact hmrkwf t3 f3 v hold
    · intro t3 p3 o3 f3 v vp hrec hreg hov htru hvp
      have hrecS : kvGet st [KeyPart.str t3, p3] = some (Val.obj o3) := by
        rw [← hrec21 t3 p3]
        exact hrec
      have hrecS1 : kvGet st1 [KeyPart.str t3, p3] = some (Val.obj o3) := by
        rw [hrec1eq t3 p3]
        exact hrecS
      rw [hmrk21 t3 f3] at hreg
      by_cases hmk : mrkKey t3 f3 = mrkKey t f
      · have htt : t3 = t := by
          simp only [mrkKey, List.cons.injEq, KeyPart.str.injEq] at hmk
          exact hmk.2.1
        have hff : f3 = f := by
          simp only [mrkKey, List.cons.injEq, KeyPart.str.injEq] at hmk
          exact hmk.2.2.1
        subst htt
        subst hff
        have hmem : Val.obj o3 ∈ lv := by
          rw [hlv, get_all_entries, kvListN, kvList]
          exact List.mem_map.mpr ⟨([KeyPart.str t3, p3], Val.obj o3),
            List.mem_filter.mpr ⟨mem_of_kvGet hrecS1, keyPre_str_rec t3 p3⟩, rfl⟩
        obtain ⟨vp0, idv0, ip0, hvp0, hid0, hip0, hkv⟩ :=
          backfillGo_success lv st1 st2 hc hdet o3 v hmem hov htru
        have hvp0vp : vp0 = vp := Option.some.inj (hvp0.symm.trans hvp)
        obtain ⟨idv1, hid1, hip1⟩ := hrecwf1 t3 p3 o3 hrecS1
        have hidv : idv1 = idv0 := Option.some.inj (hid1.symm.trans hid0)
        rw [hidv] at hip1
        have hip0p3 : ip0 = p3 := Option.some.inj (hip0.symm.trans hip1)
        rw [hvp0vp, hip0p3] at hkv
        exact ⟨idv0, hid0, hip0p3 ▸ hip0, hkv⟩
      · have hregS : (kvGet st (mrkKey t3 f3)).isSome = true := by
          rw [hst1, kvGet_kvSet_ne st _ hmk] at hreg
          exact hreg
        obtain ⟨idv3, hid3, hip3, hkv3⟩ :=
          hidx t3 p3 o3 f3 v vp hrecS hregS hov htru hvp
        refine ⟨idv3, hid3, hip3, ?_⟩
        rcases (hst2 ▸ backfillGo_frame lv st1 (idxKey t3 f3 vp p3))
          with hun | ⟨o0, w, _, hw, hgw⟩
        · rw [hun, hst1,
            kvGet_kvSet_ne st _ (idxKey_ne_mrk t3 f3 vp p3 t f)]
          exact hkv3
        · exfalso
          obtain ⟨_, _, _, _, _, _, _, _, _, hk0, _⟩ := hw
          have hc0 := hk0
          simp only [idxKey, List.cons.injEq, KeyPart.str.injEq] at hc0
          exact hmk (by rw [mrkKey, mrkKey, hc0.2.1, hc0.2.2.1])

theorem ginv_nil : GInv ([] : KV) := by
  refine ⟨List.chain'_nil, ?_, ?_, ?_, ?_⟩
  · intro k o h
    simp [kvGet] at h
  · intro t ip o h
    simp [kvGet] at h
  · intro t f v h
    simp [kvGet] at h
  · intro t ip o f v vp h
    simp [kvGet] at h

theorem applyOp_ginv {st st1 : KV} {op : Op} (hg : GInv st)
    (h : applyOp st op = (st1, none)) : GInv st1 := by
  cases op with
  | create t tm r v =>
    simp only [applyOp] at h
    rcases hce : create_entry st t tm r v with ⟨stx, res⟩
    rw [hce] at h
    cases res with
    | error e =>
      simp at h
    | ok e =>
      simp only at h
      have hsx : stx = st1 := by
        have := congrArg Prod.fst h
        simpa using this
      simp only [create_entry] at hce
      rcases hcf : create_indexes_for_entry
          (kvSet st [KeyPart.str t, KeyPart.str (ulid tm r)]
            (Val.obj (mkEntry tm r v))) t (mkEntry tm r v) with ⟨sty, erry⟩
      rw [hcf] at hce
      cases erry with
      | some er => simp at hce
      | none =>
        simp only at hce
        have hsy : sty = stx := by
          have := congrArg Prod.fst hce
          simpa using this
        have hid : objGet (mkEntry tm r v) "id" =
            some (TSVal.str (ulid tm r)) := by
          simp [mkEntry, objGet]
        have hip : (TSVal.str (ulid tm r)).toKeyPart =
            some (KeyPart.str (ulid tm r)) := rfl
        rw [hsy, hsx] at hcf
        exact ginv_write_cife hg hid hip hcf
  | update t e =>
    simp only [applyOp] at h
    rw [update_entry] at h
    cases hb : (objGet e "id").bind TSVal.toKeyPart with
    | none =>
      rw [hb] at h
      simp at h
    | some ip =>
      rw [hb] at h
      obtain ⟨idv, hid, hip⟩ := Option.bind_eq_some.mp hb
      exact ginv_write_cife hg hid hip h
  | declare t f =>
    simp only [applyOp] at h
    exact ginv_create_index hg h

theorem reach_ginv {st : KV} (h : Reach st) : GInv st := by
  induction h with
  | nil => exact ginv_nil
  | step hr happ ih => exact applyOp_ginv ih happ

/-! Listing order under successive creations. -/

theorem create_entry_fst (st : KV) (t : String) (tm : Nat) (r : String)
    (v : Obj) : (create_entry st t tm r v).1 =
      (create_indexes_for_entry
        (kvSet st [KeyPart.str t, KeyPart.str (ulid tm r)]
          (Val.obj (mkEntry tm r v))) t (mkEntry tm r v)).1 := by
  simp only [create_entry]
  rcases h : create_indexes_for_entry
      (kvSet st [KeyPart.str t, KeyPart.str (ulid tm r)]
        (Val.obj (mkEntry tm r v))) t (mkEntry tm r v) with ⟨sty, erry⟩
  cases erry <;> simp

theorem keyLtb_rec_lt {a b : String} (t : String) (h : strLtb a b = true) :
    keyLtb [KeyPart.str t, KeyPart.str a]
      [KeyPart.str t, KeyPart.str b] = true := by
  simp [keyLtb, KeyPart.ltb, h, strLtb_irrefl]

theorem createAll_kvList {t : String} (ht : t ≠ "__indexes") :
    ∀ (l : List (Nat × String × Obj)) (st : KV), KVSorted st →
    (∀ e ∈ st, keyPre [KeyPart.str t] e.1 = true →
      ∀ c ∈ l, keyLtb e.1
        [KeyPart.str t, KeyPart.str (ulid c.1 c.2.1)] = true) →
    List.Pairwise (fun a b => strLtb (ulid a.1 a.2.1) (ulid b.1 b.2.1) = true) l →
    KVSorted (createAll st t l) ∧
    kvList (createAll st t l) [KeyPart.str t] =
      kvList st [KeyPart.str t] ++
        l.map (fun c => ([KeyPart.str t, KeyPart.str (ulid c.1 c.2.1)],
          Val.obj (mkEntry c.1 c.2.1 c.2.2)))
  | [], st, hs, _, _ => ⟨hs, by simp [createAll]⟩
  | c :: rest, st, hs, hlt, hmono => by
    have hpw := List.pairwise_cons.mp hmono
    have hstep : kvList (create_entry st t c.1 c.2.1 c.2.2).1 [KeyPart.str t] =
        kvList st [KeyPart.str t] ++
          [([KeyPart.str t, KeyPart.str (ulid c.1 c.2.1)],
            Val.obj (mkEntry c.1 c.2.1 c.2.2))] := by
      rw [create_entry_fst, create_indexes_for_entry]
      rw [cifeGo_kvList ht]
      exact kvList_kvSet_app st _ hs (keyPre_str_rec ..)
        (fun e he hpe => hlt e he hpe c (List.mem_cons_self ..))
    have hsorted1 : KVSorted (create_entry st t c.1 c.2.1 c.2.2).1 := by
      rw [create_entry_fst, create_indexes_for_entry]
      exact cifeGo_sorted _ _ (sorted_kvSet _ _ hs)
    have hlt1 : ∀ e ∈ (create_entry st t c.1 c.2.1 c.2.2).1,
        keyPre [KeyPart.str t] e.1 = true →
        ∀ c2 ∈ rest, keyLtb e.1
          [KeyPart.str t, KeyPart.str (ulid c2.1 c2.2.1)] = true := by
      intro e he hpe c2 hc2
      have hef : e ∈ kvList (create_entry st t c.1 c.2.1 c.2.2).1
          [KeyPart.str t] :=
        List.mem_filter.mpr ⟨he, hpe⟩
      rw [hstep] at hef
      rcases List.mem_append.mp hef with hold | hnew
      · exact hlt e (List.mem_filter.mp hold).1 hpe c2
          (List.mem_cons_of_mem _ hc2)
      · have hee : e = ([KeyPart.str t, KeyPart.str (ulid c.1 c.2.1)],
            Val.obj (mkEntry c.1 c.2.1 c.2.2)) := by
          simpa using hnew
        rw [hee]
        exact keyLtb_rec_lt t (hpw.1 c2 hc2)
    obtain ⟨hsr, hlr⟩ := createAll_kvList ht rest _ hsorted1 hlt1 hpw.2
    refine ⟨hsr, ?_⟩
    rw [createAll, hlr, hstep]
    simp

theorem createAll_order {t : String} {l : List (Nat × String × Obj)}
    {st0 : KV} (ht : t ≠ "__indexes") (hs : KVSorted st0)
    (h0 : kvList st0 [KeyPart.str t] = [])
    (hmono : List.Pairwise (fun a b => strLtb (ulid a.1 a.2.1) (ulid b.1 b.2.1) = true) l) :
    get_all_entries (createAll st0 t l) t none =
      l.map (fun c => Val.obj (mkEntry c.1 c.2.1 c.2.2)) := by
  have hlt : ∀ e ∈ st0, keyPre [KeyPart.str t] e.1 = true →
      ∀ c ∈ l, keyLtb e.1
        [KeyPart.str t, KeyPart.str (ulid c.1 c.2.1)] = true := by
    intro e he hpe c _
    exfalso
    have : e ∈ kvList st0 [KeyPart.str t] := List.mem_filter.mpr ⟨he, hpe⟩
    rw [h0] at this
    simp at this
  obtain ⟨_, hlist⟩ := createAll_kvList ht l st0 hs hlt hmono
  rw [get_all_entries, kvListN, hlist, h0]
  simp

/-! Operation-level facts used by the claim theorems. -/

theorem update_entry_err (st : KV) (t : String) (e : Obj) :
    (update_entry st t e).2 = none ∨
      (update_entry st t e).2 = some DBErr.invalidKey := by
  rw [update_entry]
  cases hb : (objGet e "id").bind TSVal.toKeyPart with
  | none => exact Or.inr rfl
  | some ip =>
    dsimp only
    rw [create_indexes_for_entry]
    exact cifeGo_err _ _

theorem update_entry_writes (st : KV) (t : String) (e : Obj) {idv : TSVal}
    {ip : KeyPart} (hid : objGet e "id" = some idv)
    (hip : idv.toKeyPart = some ip) :
    kvGet (update_entry st t e).1 [KeyPart.str t, ip] = some (Val.obj e) := by
  rw [update_entry]
  have hb : (objGet e "id").bind TSVal.toKeyPart = some ip := by
    rw [hid]
    exact hip
  rw [hb]
  dsimp only
  rw [create_indexes_for_entry, cifeGo_get_rec t ip]
  exact kvGet_kvSet_self ..

theorem update_entry_get {st st1 : KV} {t : String} {e : Obj}
    (h : update_entry st t e = (st1, none)) :
    get_entry st1 t (objGet e "id") = .ok (some (Val.obj e)) := by
  have hb : ∃ ip, (objGet e "id").bind TSVal.toKeyPart = some ip := by
    rcases hbc : (objGet e "id").bind TSVal.toKeyPart with _ | ip
    · rw [update_entry, hbc] at h
      simp at h
    · exact ⟨ip, rfl⟩
  obtain ⟨ip, hbip⟩ := hb
  obtain ⟨idv, hid, hip⟩ := Option.bind_eq_some.mp hbip
  have hw := update_entry_writes st t e hid hip
  rw [show (update_entry st t e).1 = st1 from congrArg Prod.fst h] at hw
  rw [get_entry, hid]
  simp [Option.bind, hip, hw]

theorem create_entry_get {st st1 : KV} {t : String} {tm : Nat} {r : String}
    {v : Obj} {e : Obj} (h : create_entry st t tm r v = (st1, .ok e)) :
    e = mkEntry tm r v ∧
      get_entry st1 t (objGet e "id") = .ok (some (Val.obj e)) := by
  simp only [create_entry] at h
  rcases hcf : create_indexes_for_entry
      (kvSet st [KeyPart.str t, KeyPart.str (ulid tm r)]
        (Val.obj (mkEntry tm r v))) t (mkEntry tm r v) with ⟨sty, erry⟩
  rw [hcf] at h
  cases erry with
  | some er => simp at h
  | none =>
    simp only [Prod.mk.injEq] at h
    have hsy : sty = st1 := h.1
    have hee : e = mkEntry tm r v := by
      have := h.2
      injection this with h2
      exact h2.symm
    subst hee
    refine ⟨rfl, ?_⟩
    have hid : objGet (mkEntry tm r v) "id" =
        some (TSVal.str (ulid tm r)) := by
      simp [mkEntry, objGet]
    have hget : kvGet st1 [KeyPart.str t, KeyPart.str (ulid tm r)] =
        some (Val.obj (mkEntry tm r v)) := by
      rw [← hsy, show sty = (create_indexes_for_entry
          (kvSet st [KeyPart.str t, KeyPart.str (ulid tm r)]
            (Val.obj (mkEntry tm r v))) t (mkEntry tm r v)).1 from by
          rw [hcf]]
      rw [create_indexes_for_entry, cifeGo_get_rec t (KeyPart.str (ulid tm r))]
      exact kvGet_kvSet_self ..
    rw [get_entry, hid]
    simp [Option.bind, TSVal.toKeyPart, hget]

theorem create_index_mrk (st : KV) (t f : String) :
    (kvGet (create_index st t f).1 (mrkKey t f)).isSome = true := by
  by_cases hm : (kvGet st (mrkKey t f)).isSome = true
  · rw [create_index, if_pos hm]
    exact hm
  · rw [create_index, if_neg hm]
    simp only
    rw [backfillGo_get_mrk t f, kvGet_kvSet_self]
    rfl

theorem create_index_noop {st : KV} {t f : String}
    (hm : (kvGet st (mrkKey t f)).isSome = true) :
    create_index st t f = (st, none) := by
  rw [create_index, if_pos hm]

/-! Lemmas about the spec-modelled delete. -/

theorem onDeleteGo_nodup {t id : String} {o : Obj} :
    ∀ (l : List (Key × Val)) (st : KV), NodupKeys st →
      NodupKeys (onDeleteGo t id o l st)
  | [], _, h => h
  | (km0, mv0) :: rest, st, h => by
    cases mv0 with
    | obj o0 => exact onDeleteGo_nodup rest st h
    | prim tv =>
      cases tv with
      | num n => exact onDeleteGo_nodup rest st h
      | bool b => exact onDeleteGo_nodup rest st h
      | date d => exact onDeleteGo_nodup rest st h
      | str f0 =>
        cases hb : (objGet o f0).bind TSVal.toKeyPart with
        | none =>
          simp only [onDeleteGo, hb]
          exact onDeleteGo_nodup rest st h
        | some vp =>
          simp only [onDeleteGo, hb]
          exact onDeleteGo_nodup rest _ (nodup_kvDel h _)

theorem onDeleteGo_none {t id : String} {o : Obj} :
    ∀ (l : List (Key × Val)) (st : KV) (k : Key), kvGet st k = none →
      kvGet (onDeleteGo t id o l st) k = none
  | [], _, _, h => h
  | (km0, mv0) :: rest, st, k, h => by
    cases mv0 with
    | obj o0 => exact onDeleteGo_none rest st k h
    | prim tv =>
      cases tv with
      | num n => exact onDeleteGo_none rest st k h
      | bool b => exact onDeleteGo_none rest st k h
      | date d => exact onDeleteGo_none rest st k h
      | str f0 =>
        cases hb : (objGet o f0).bind TSVal.toKeyPart with
        | none =>
          simp only [onDeleteGo, hb]
          exact onDeleteGo_none rest st k h
        | some vp =>
          simp only [onDeleteGo, hb]
          exact onDeleteGo_none rest _ k (kvDel_none_mono st _ h)

theorem onDeleteGo_some {t id : String} {o : Obj} :
    ∀ (l : List (Key × Val)) (st : KV) (k : Key) (v : Val), NodupKeys st →
      kvGet (onDeleteGo t id o l st) k = some v → kvGet st k = some v
  | [], _, _, _, _, h => h
  | (km0, mv0) :: rest, st, k, v, hnd, h => by
    cases mv0 with
    | obj o0 => exact onDeleteGo_some rest st k v hnd h
    | prim tv =>
      cases tv with
      | num n => exact onDeleteGo_some rest st k v hnd h
      | bool b => exact onDeleteGo_some rest st k v hnd h
      | date d => exact onDeleteGo_some rest st k v hnd h
      | str f0 =>
        cases hb : (objGet o f0).bind TSVal.toKeyPart with
        | none =>
          simp only [onDeleteGo, hb] at h
          exact onDeleteGo_some rest st k v hnd h
        | some vp =>
          simp only [onDeleteGo, hb] at h
          exact kvGet_kvDel_some hnd
            (onDeleteGo_some rest _ k v (nodup_kvDel hnd _) h)

theorem onDeleteGo_removes {t id : String} {o : Obj} {f : String} {fv : TSVal}
    {vp : KeyPart} (hof : objGet o f = some fv) (hvp : fv.toKeyPart = some vp) :
    ∀ (l : List (Key × Val)) (st : KV) (km : Key), NodupKeys st →
      (km, Val.prim (.str f)) ∈ l →
      kvGet (onDeleteGo t id o l st) (idxKey t f vp (.str id)) = none
  | [], _, _, _, hm => by simp at hm
  | (km0, mv0) :: rest, st, km, hnd, hm => by
    cases mv0 with
    | obj o0 =>
      have hmr : (km, Val.prim (.str f)) ∈ rest := by
        rcases List.mem_cons.mp hm with hh | ht
        · exact absurd (congrArg Prod.snd hh) (by simp)
        · exact ht
      exact onDeleteGo_removes hof hvp rest st km hnd hmr
    | prim tv =>
      cases tv with
      | num n =>
        have hmr : (km, Val.prim (.str f)) ∈ rest := by
          rcases List.mem_cons.mp hm with hh | ht
          · exact absurd (congrArg Prod.snd hh) (by simp)
          · exact ht
        exact onDeleteGo_removes hof hvp rest st km hnd hmr
      | bool b =>
        have hmr : (km, Val.prim (.str f)) ∈ rest := by
          rcases List.mem_cons.mp hm with hh | ht
          · exact absurd (congrArg Prod.snd hh) (by simp)
          · exact ht
        exact onDeleteGo_removes hof hvp rest st km hnd hmr
      | date d =>
        have hmr : (km, Val.prim (.str f)) ∈ rest := by
          rcases List.mem_cons.mp hm with hh | ht
          · exact absurd (congrArg Prod.snd hh) (by simp)
          · exact ht
        exact onDeleteGo_removes hof hvp rest st km hnd hmr
      | str f0 =>
        by_cases hf : f0 = f
        · subst hf
          have hb : (objGet o f0).bind TSVal.toKeyPart = some vp := by
            rw [hof]
            exact hvp
          simp only [onDeleteGo, hb]
          exact onDeleteGo_none rest _ _
            (kvGet_kvDel_self hnd (idxKey t f0 vp (.str id)))
        · have hmr : (km, Val.prim (.str f)) ∈ rest := by
            rcases List.mem_cons.mp hm with hh | ht
            · exfalso
              have := congrArg Prod.snd hh
              simp only at this
              injection this with this
              injection this with this
              exact hf this.symm
            · exact ht
          cases hb : (objGet o f0).bind TSVal.toKeyPart with
          | none =>
            simp only [onDeleteGo, hb]
            exact onDeleteGo_removes hof hvp rest st km hnd hmr
          | some vp0 =>
            simp only [onDeleteGo, hb]
            exact onDeleteGo_removes hof hvp rest _ km (nodup_kvDel hnd _) hmr

theorem derefAll_mem {st : KV} {t : String} :
    ∀ {l : List (Key × Val)} {xs : List (Option Val)},
      derefAll st t l = .ok xs → ∀ x ∈ xs, ∃ e ∈ l,
        get_entry st t e.2.asTS = .ok x := by
  intro l
  induction l with
  | nil =>
    intro xs h x hx
    rw [derefAll] at h
    injection h with h
    rw [← h] at hx
    simp at hx
  | cons e rest ih =>
    intro xs h x hx
    rw [derefAll] at h
    rcases hge : get_entry st t e.2.asTS with er | x0
    · rw [hge] at h
      exact absurd h (by simp)
    · rw [hge] at h
      rcases hda : derefAll st t rest with er | xs0
      · rw [hda] at h
        exact absurd h (by simp)
      · rw [hda] at h
        injection h with h
        rw [← h] at hx
        rcases List.mem_cons.mp hx with hh | ht
        · exact ⟨e, List.mem_cons_self .., by rw [hge, hh]⟩
        · obtain ⟨e2, hm2, hg2⟩ := ih hda x ht
          exact ⟨e2, List.mem_cons_of_mem _ hm2, hg2⟩

theorem recWFB_recwf {st : KV} (h : recWFB st = true) : RecWF st := by
  intro t ip o hk
  have hm := mem_of_kvGet hk
  have he := List.all_eq_true.mp h _ hm
  cases hv : objGet o "id" with
  | none => simp [entryWF, hv] at he
  | some idv =>
    simp [entryWF, hv] at he
    exact ⟨idv, rfl, he⟩

theorem keyPre_head {p : KeyPart} {k : Key} (h : keyPre [p] k = true) :
    ∃ ks, k = p :: ks := by
  cases k with
  | nil => simp [keyPre] at h
  | cons a as =>
    simp only [keyPre, Bool.and_eq_true, decide_eq_true_eq] at h
    exact ⟨as, by rw [h.1]⟩

/-!
Claim theorems.
-/

/-- C3 (counterexample): on an empty store, `update_entry` with an id that
references no existing record does not fail with NotFound — it succeeds and
creates the record, leaving the store changed. -/
theorem c3_notfound_counterexample :
    kvGet ([] : KV) [KeyPart.str "users", KeyPart.str "X"] = none ∧
    update_entry [] "users" [("id", TSVal.str "X")] =
      ([([KeyPart.str "users", KeyPart.str "X"],
        Val.obj [("id", TSVal.str "X")])], none) := by
  decide

/-- C3 (amended): `update_entry` never fails with NotFound and performs no
existence check: whenever the entry's id is a legal key part, the supplied
field set is persisted at `(table, id)` whether or not a record existed;
an unset or illegal id fails with an invalid-key error, store unchanged. -/
theorem c3_update_upsert (st : KV) (t : String) (e : Obj) :
    ((update_entry st t e).2 ≠ some DBErr.notFound) ∧
    (objGet e "id" = none → update_entry st t e = (st, some DBErr.invalidKey)) ∧
    (∀ idv ip, objGet e "id" = some idv → idv.toKeyPart = some ip →
      kvGet (update_entry st t e).1 [KeyPart.str t, ip] = some (Val.obj e)) := by
  refine ⟨?_, ?_, ?_⟩
  · rcases update_entry_err st t e with h | h <;> rw [h] <;> simp
  · intro h
    rw [update_entry, h]
    rfl
  · intro idv ip hid hip
    exact update_entry_writes st t e hid hip

/-- C3 (witness). -/
theorem c3_update_upsert_witness :
    objGet [("id", TSVal.str "X")] "id" = some (TSVal.str "X") ∧
    (TSVal.str "X").toKeyPart = some (KeyPart.str "X") ∧
    kvGet (update_entry [] "users" [("id", TSVal.str "X")]).1
      [KeyPart.str "users", KeyPart.str "X"] =
      some (Val.obj [("id", TSVal.str "X")]) :=
  ⟨by decide, by decide,
    (c3_update_upsert [] "users" [("id", TSVal.str "X")]).2.2
      (TSVal.str "X") (KeyPart.str "X") (by decide) (by decide)⟩

/-- C4 (code bug): with indexes declared on `age` and `email`, updating a
record that carries `email` but not `age` persists the record, then throws
while building the index key for the absent `age` (undefined key part), so
no index entry is written even for the present `email` field — against the
spec's "if present, write the entry; if absent, skip". -/
theorem c4_absent_field_breaks_indexing :
    (update_entry
        (create_index (create_index [] "users" "age").1 "users" "email").1
        "users" [("id", TSVal.str "u1"), ("email", TSVal.str "e")]).2 =
      some DBErr.invalidKey ∧
    objGet [("id", TSVal.str "u1"), ("email", TSVal.str "e")] "email" =
      some (TSVal.str "e") ∧
    kvGet (update_entry
        (create_index (create_index [] "users" "age").1 "users" "email").1
        "users" [("id", TSVal.str "u1"), ("email", TSVal.str "e")]).1
      (idxKey "users" "email" (KeyPart.str "e") (KeyPart.str "u1")) = none ∧
    kvGet (update_entry
        (create_index (create_index [] "users" "age").1 "users" "email").1
        "users" [("id", TSVal.str "u1"), ("email", TSVal.str "e")]).1
      [KeyPart.str "users", KeyPart.str "u1"] =
      some (Val.obj [("id", TSVal.str "u1"), ("email", TSVal.str "e")]) := by
  decide

/-- C5 (code bug): `get_entry_by_index` with no matching index entry
dereferences `undefined` and fails with an invalid-key error instead of
returning absent (the repository's own test expects `undefined`); and
`get_entries_by_index` keeps a `none` placeholder for a dangling index
entry instead of omitting it from the result. -/
theorem c5_lookup_error_behavior :
    get_entry_by_index
      (create_entry (create_index [] "users" "email").1 "users" 0
        "0000000000000000"
        [("email", TSVal.str "a@a"), ("name", TSVal.str "a"),
          ("age", TSVal.num 1)]).1
      "users" "email" (KeyPart.str "b@a") = .error DBErr.invalidKey ∧
    get_entries_by_index
      (kvSet (create_entry (create_index [] "users" "email").1 "users" 0
          "0000000000000000" [("email", TSVal.str "a@a")]).1
        (idxKey "users" "email" (KeyPart.str "zz") (KeyPart.str "ghost"))
        (Val.prim (TSVal.str "ghost")))
      "users" "email" (KeyPart.str "zz") = .ok [none] := by
  decide

/-- C6 (counterexample): updating an existing record with a partial entry
that omits `date_created` replaces the stored value wholesale, so the
stored record loses `date_created` (and `name`), against "update never
changes date_created". -/
theorem c6_update_drops_fields :
    (update_entry
        (create_entry [] "users" 5 "0000000000000000"
          [("email", TSVal.str "a"), ("name", TSVal.str "n")]).1 "users"
        [("id", TSVal.str "00000000050000000000000000"),
          ("email", TSVal.str "b")]).2 = none ∧
    objGet (mkEntry 5 "0000000000000000"
      [("email", TSVal.str "a"), ("name", TSVal.str "n")]) "date_created" =
      some (TSVal.date 5) ∧
    kvGet (update_entry
        (create_entry [] "users" 5 "0000000000000000"
          [("email", TSVal.str "a"), ("name", TSVal.str "n")]).1 "users"
        [("id", TSVal.str "00000000050000000000000000"),
          ("email", TSVal.str "b")]).1
      [KeyPart.str "users", KeyPart.str "00000000050000000000000000"] =
      some (Val.obj [("id", TSVal.str "00000000050000000000000000"),
        ("email", TSVal.str "b")]) ∧
    objGet [("id", TSVal.str "00000000050000000000000000"),
      ("email", TSVal.str "b")] "date_created" = none := by
  decide

/-- C6 (amended): a successful `update_entry` replaces the stored value at
`(table, id)` with exactly the supplied entry, so a subsequent `get_entry`
returns precisely the supplied field set — `id` and `date_created` are
unchanged only insofar as the caller includes them unchanged (as when a
full record is updated); omitted fields are dropped, not preserved. -/
theorem c6_update_replaces {st st1 : KV} {t : String} {e : Obj}
    (h : update_entry st t e = (st1, none)) :
    get_entry st1 t (objGet e "id") = .ok (some (Val.obj e)) :=
  update_entry_get h

/-- C6 (witness). -/
theorem c6_update_replaces_witness :
    update_entry [] "users" [("id", TSVal.str "X"), ("email", TSVal.str "b")] =
      ((update_entry [] "users"
        [("id", TSVal.str "X"), ("email", TSVal.str "b")]).1, none) ∧
    get_entry (update_entry [] "users"
        [("id", TSVal.str "X"), ("email", TSVal.str "b")]).1 "users"
      (objGet [("id", TSVal.str "X"), ("email", TSVal.str "b")] "id") =
      .ok (some (Val.obj [("id", TSVal.str "X"), ("email", TSVal.str "b")])) :=
  ⟨by decide,
    @c6_update_replaces []
      ((update_entry [] "users"
        [("id", TSVal.str "X"), ("email", TSVal.str "b")]).1)
      "users" [("id", TSVal.str "X"), ("email", TSVal.str "b")] (by decide)⟩

/-- C8: a successful `create_entry` on a valid field set (no reserved `id`
or `date_created` fields) returns a record whose id dereferences through
`get_entry` to a value equal to the returned record. -/
theorem c8_roundtrip {st st1 : KV} {t : String} {tm : Nat} {r : String}
    {v e : Obj} (_hv1 : objGet v "id" = none)
    (_hv2 : objGet v "date_created" = none)
    (h : create_entry st t tm r v = (st1, .ok e)) :
    get_entry st1 t (objGet e "id") = .ok (some (Val.obj e)) :=
  (create_entry_get h).2

/-- C8 (witness). -/
theorem c8_roundtrip_witness :
    objGet [("email", TSVal.str "a")] "id" = none ∧
    objGet [("email", TSVal.str "a")] "date_created" = none ∧
    get_entry (create_entry [] "users" 0 "0000000000000000"
        [("email", TSVal.str "a")]).1 "users"
      (objGet (mkEntry 0 "0000000000000000" [("email", TSVal.str "a")]) "id") =
      .ok (some (Val.obj (mkEntry 0 "0000000000000000"
        [("email", TSVal.str "a")]))) :=
  ⟨by decide, by decide,
    @c8_roundtrip []
      ((create_entry [] "users" 0 "0000000000000000"
        [("email", TSVal.str "a")]).1)
      "users" 0 "0000000000000000" [("email", TSVal.str "a")]
      (mkEntry 0 "0000000000000000" [("email", TSVal.str "a")])
      (by decide) (by decide) (by decide)⟩

/-- C9: declaring an index a second time for an already-registered
`(table, field)` pair returns without side effects, and two consecutive
`create_index` calls leave exactly the state of one call. -/
theorem c9_create_index_idempotent (st : KV) (t f : String) :
    ((kvGet st (mrkKey t f)).isSome = true → create_index st t f = (st, none)) ∧
    create_index (create_index st t f).1 t f =
      ((create_index st t f).1, none) :=
  ⟨fun hm => create_index_noop hm, create_index_noop (create_index_mrk st t f)⟩

/-- C9 (witness). -/
theorem c9_create_index_idempotent_witness :
    (kvGet (create_index [] "users" "email").1
      (mrkKey "users" "email")).isSome = true ∧
    create_index (create_index [] "users" "email").1 "users" "email" =
      ((create_index [] "users" "email").1, none) :=
  ⟨by decide,
    (c9_create_index_idempotent (create_index [] "users" "email").1
      "users" "email").1 (by decide)⟩

/-- C10: every key under the `"__indexes"` prefix that `create_index` or
`create_indexes_for_entry` writes or changes has the five-part shape
`["__indexes", table, field, value, id]`, and the value stored there is the
id component of the key. -/
theorem c10_index_entry_shape (st : KV) (t f : String) (value : Obj) (k : Key)
    (hpre : keyPre [KeyPart.str "__indexes"] k = true) :
    (kvGet (create_index st t f).1 k = kvGet st k ∨
      ∃ t2 f2 vp ip idv, k = idxKey t2 f2 vp ip ∧
        kvGet (create_index st t f).1 k = some (Val.prim idv) ∧
        idv.toKeyPart = some ip) ∧
    (kvGet (create_indexes_for_entry st t value).1 k = kvGet st k ∨
      ∃ t2 f2 vp ip idv, k = idxKey t2 f2 vp ip ∧
        kvGet (create_indexes_for_entry st t value).1 k = some (Val.prim idv) ∧
        idv.toKeyPart = some ip) := by
  constructor
  · by_cases hm : (kvGet st (mrkKey t f)).isSome = true
    · rw [create_index_noop hm]
      left
      rfl
    · rw [create_index, if_neg hm]
      simp only
      obtain ⟨ks, hks⟩ := keyPre_head hpre
      have hkm : k ≠ mrkKey t f := by
        rw [hks, mrkKey]
        intro hcon
        simp at hcon
      rcases backfillGo_frame (get_all_entries
          (kvSet st (mrkKey t f) (Val.prim (.str f))) t none)
          (kvSet st (mrkKey t f) (Val.prim (.str f))) k
        with hun | ⟨o, w, _, hw, hgw⟩
      · left
        rw [hun, kvGet_kvSet_ne st _ hkm]
      · right
        obtain ⟨fv, vp, idv, ip, _, _, hvpw, _, hipw, hkw, hww⟩ := hw
        rw [hww] at hgw
        exact ⟨t, f, vp, ip, idv, hkw, hgw, hipw⟩
  · rw [create_indexes_for_entry]
    rcases @cifeGo_frame t value
        (kvList st [KeyPart.str "__indexes_for", KeyPart.str t]) st k
      with hun | ⟨w, hw, hgw⟩
    · exact Or.inl hun
    · obtain ⟨f2, v2, vp2, idv2, ip2, hk2, _, _, _, hip2, hw2⟩ := hw
      rw [hw2] at hgw
      exact Or.inr ⟨t, f2, vp2, ip2, idv2, hk2, hgw, hip2⟩

/-- C7 (counterexample): two `create_entry` calls in the same millisecond
can generate a second ulid smaller than the first (the random suffix is not
monotone), and `get_all_entries` then lists the records in key order, which
is the reverse of creation order. -/
theorem c7_listing_order_counterexample :
    strLtb (ulid 0 "0000000000000000") (ulid 0 "ZZZZZZZZZZZZZZZZ") = true ∧
    get_all_entries
      (create_entry (create_entry [] "t" 0 "ZZZZZZZZZZZZZZZZ"
          [("a", TSVal.str "x")]).1 "t" 0 "0000000000000000"
        [("a", TSVal.str "y")]).1 "t" none =
      [Val.obj (mkEntry 0 "0000000000000000" [("a", TSVal.str "y")]),
        Val.obj (mkEntry 0 "ZZZZZZZZZZZZZZZZ" [("a", TSVal.str "x")])] := by
  decide

/-- C7 (amended): `get_all_entries` returns the records of a table in
primary-key order; this equals creation order exactly when the generated
ulids increase across the successive calls (guaranteed when the clock
strictly advances, but not within one millisecond, where plain `ulid()`
draws an arbitrary random suffix). -/
theorem c7_listing_in_creation_order (t : String)
    (l : List (Nat × String × Obj)) (st0 : KV) (ht : t ≠ "__indexes")
    (hs : KVSorted st0) (h0 : kvList st0 [KeyPart.str t] = [])
    (hmono : List.Pairwise
      (fun a b => strLtb (ulid a.1 a.2.1) (ulid b.1 b.2.1) = true) l) :
    get_all_entries (createAll st0 t l) t none =
      l.map (fun c => Val.obj (mkEntry c.1 c.2.1 c.2.2)) :=
  createAll_order ht hs h0 hmono

/-- C7 (witness). -/
theorem c7_listing_in_creation_order_witness :
    List.Pairwise
      (fun a b => strLtb (ulid a.1 a.2.1) (ulid b.1 b.2.1) = true)
      ([(0, "AAAAAAAAAAAAAAAA", [("a", TSVal.str "x")]),
        (0, "BBBBBBBBBBBBBBBB", [("a", TSVal.str "y")])] :
        List (Nat × String × Obj)) ∧
    get_all_entries (createAll [] "t"
        [(0, "AAAAAAAAAAAAAAAA", [("a", TSVal.str "x")]),
          (0, "BBBBBBBBBBBBBBBB", [("a", TSVal.str "y")])]) "t" none =
      [Val.obj (mkEntry 0 "AAAAAAAAAAAAAAAA" [("a", TSVal.str "x")]),
        Val.obj (mkEntry 0 "BBBBBBBBBBBBBBBB" [("a", TSVal.str "y")])] :=
  ⟨by decide,
    c7_listing_in_creation_order "t" _ [] (by decide) List.chain'_nil
      (by decide) (by decide)⟩

/-- C1 (counterexample): with an index on `users.email`, creating a record
with email `"a"` and then updating it to email `"b"` succeeds, yet the
index entry for the retracted value `"a"` is still present while the
record's email is `"b"` — update never removes stale index entries. -/
theorem c1_invariant_counterexample :
    (update_entry
        (create_entry (create_index [] "users" "email").1 "users" 0
          "0000000000000000" [("email", TSVal.str "a")]).1 "users"
        [("id", TSVal.str "00000000000000000000000000"),
          ("date_created", TSVal.date 0), ("email", TSVal.str "b")]).2 =
      none ∧
    kvGet (update_entry
        (create_entry (create_index [] "users" "email").1 "users" 0
          "0000000000000000" [("email", TSVal.str "a")]).1 "users"
        [("id", TSVal.str "00000000000000000000000000"),
          ("date_created", TSVal.date 0), ("email", TSVal.str "b")]).1
      [KeyPart.str "users", KeyPart.str "00000000000000000000000000"] =
      some (Val.obj [("id", TSVal.str "00000000000000000000000000"),
        ("date_created", TSVal.date 0), ("email", TSVal.str "b")]) ∧
    kvGet (update_entry
        (create_entry (create_index [] "users" "email").1 "users" 0
          "0000000000000000" [("email", TSVal.str "a")]).1 "users"
        [("id", TSVal.str "00000000000000000000000000"),
          ("date_created", TSVal.date 0), ("email", TSVal.str "b")]).1
      (idxKey "users" "email" (KeyPart.str "a")
        (KeyPart.str "00000000000000000000000000")) =
      some (Val.prim (TSVal.str "00000000000000000000000000")) := by
  decide

/-- C1 (amended): in every store reachable from the empty store by
successful operations, every live record of a table with a registered index
on a field whose value is present, truthy and a legal key part has exactly
one index entry under `("__indexes", table, field, value, id)`, holding the
record's id (keys are unique as the store is duplicate-free).  Stale
entries for values a record no longer has are, however, not removed. -/
theorem c1_reachable_index_invariant {st : KV} (h : Reach st) :
    IdxInv st ∧ NodupKeys st :=
  ⟨(reach_ginv h).2.2.2.2, nodup_of_sorted (reach_ginv h).1⟩

/-- C1 (witness). -/
theorem c1_reachable_index_invariant_witness :
    ∃ idv, objGet (mkEntry 0 "0000000000000000" [("email", TSVal.str "a")])
        "id" = some idv ∧
      idv.toKeyPart = some (KeyPart.str "00000000000000000000000000") ∧
      kvGet (create_entry (create_index [] "users" "email").1 "users" 0
          "0000000000000000" [("email", TSVal.str "a")]).1
        (idxKey "users" "email" (KeyPart.str "a")
          (KeyPart.str "00000000000000000000000000")) =
        some (Val.prim idv) := by
  have h1 : Reach (create_index [] "users" "email").1 :=
    @Reach.step [] ((create_index [] "users" "email").1)
      (Op.declare "users" "email") Reach.nil (by decide)
  have h2 : Reach (create_entry (create_index [] "users" "email").1 "users" 0
      "0000000000000000" [("email", TSVal.str "a")]).1 :=
    @Reach.step ((create_index [] "users" "email").1)
      ((create_entry (create_index [] "users" "email").1 "users" 0
        "0000000000000000" [("email", TSVal.str "a")]).1)
      (Op.create "users" 0 "0000000000000000" [("email", TSVal.str "a")]) h1
      (by decide)
  exact (c1_reachable_index_invariant h2).1 "users"
    (KeyPart.str "00000000000000000000000000")
    (mkEntry 0 "0000000000000000" [("email", TSVal.str "a")])
    "email" (TSVal.str "a") (KeyPart.str "a")
    (by decide) (by decide) (by decide) (by decide) (by decide)

/-- C2 (spec-modelled): deleting a nonexistent record fails with NotFound
and leaves the store unchanged; deleting an existing record removes
`(table, id)` — so `get_entry` is absent afterwards — removes the index
entry for each registered field's current value, and no indexed lookup
returns the record any longer (dangling entries dereference to nothing). -/
theorem c2_delete_entry_spec (st : KV) (t id : String) :
    (kvGet st [KeyPart.str t, KeyPart.str id] = none →
      delete_entry st t id = (st, some DBErr.notFound)) ∧
    (∀ o, kvGet st [KeyPart.str t, KeyPart.str id] = some (Val.obj o) →
      NodupKeys st → recWFB st = true →
      (delete_entry st t id).2 = none ∧
      get_entry (delete_entry st t id).1 t (some (TSVal.str id)) = .ok none ∧
      (∀ f fv vp, kvGet st (mrkKey t f) = some (Val.prim (.str f)) →
        objGet o f = some fv → fv.toKeyPart = some vp →
        kvGet (delete_entry st t id).1 (idxKey t f vp (.str id)) = none) ∧
      (∀ f vv xs,
        get_entries_by_index (delete_entry st t id).1 t f vv = .ok xs →
        ∀ x ∈ xs, ∀ o2, x = some (Val.obj o2) →
          objGet o2 "id" ≠ some (TSVal.str id))) := by
  constructor
  · intro h
    rw [delete_entry.eq_def, h]
  · intro o ho hnd hwfb
    have hD : delete_entry st t id =
        (onDeleteGo t id o
          (kvList (kvDel st [KeyPart.str t, KeyPart.str id])
            [KeyPart.str "__indexes_for", KeyPart.str t])
          (kvDel st [KeyPart.str t, KeyPart.str id]), none) := by
      rw [delete_entry.eq_def, ho]
    have hnd1 : NodupKeys (kvDel st [KeyPart.str t, KeyPart.str id]) :=
      nodup_kvDel hnd _
    have hgone : kvGet (delete_entry st t id).1
        [KeyPart.str t, KeyPart.str id] = none := by
      rw [hD]
      exact onDeleteGo_none _ _ _ (kvGet_kvDel_self hnd _)
    refine ⟨by rw [hD], ?_, ?_, ?_⟩
    · simp [get_entry, TSVal.toKeyPart, hgone]
    · intro f fv vp hmrk hof hvp
      have hmrk1 : kvGet (kvDel st [KeyPart.str t, KeyPart.str id])
          (mrkKey t f) = some (Val.prim (.str f)) := by
        rw [kvGet_kvDel_ne st (mrkKey_ne_rec t f t (KeyPart.str id))]
        exact hmrk
      have hmem : (mrkKey t f, Val.prim (.str f)) ∈
          kvList (kvDel st [KeyPart.str t, KeyPart.str id])
            [KeyPart.str "__indexes_for", KeyPart.str t] := by
        rw [kvList]
        exact List.mem_filter.mpr ⟨mem_of_kvGet hmrk1, keyPre_mrk t f⟩
      rw [hD]
      exact onDeleteGo_removes hof hvp _ _ (mrkKey t f) hnd1 hmem
    · intro f vv xs hxs x hx o2 hxo
      intro hcon
      rw [get_entries_by_index] at hxs
      obtain ⟨e, _, hge⟩ := derefAll_mem hxs x hx
      rw [hxo] at hge
      rcases hbt : (e.2.asTS).bind TSVal.toKeyPart with _ | p
      · rw [get_entry, hbt] at hge
        exact absurd hge (by simp)
      · rw [get_entry, hbt] at hge
        simp only [Except.ok.injEq] at hge
        have hndD : NodupKeys (delete_entry st t id).1 := by
          rw [hD]
          exact onDeleteGo_nodup _ _ hnd1
        have hgS : kvGet st [KeyPart.str t, p] = some (Val.obj o2) := by
          apply kvGet_kvDel_some hnd
          have hg1 : kvGet (onDeleteGo t id o
              (kvList (kvDel st [KeyPart.str t, KeyPart.str id])
                [KeyPart.str "__indexes_for", KeyPart.str t])
              (kvDel st [KeyPart.str t, KeyPart.str id]))
              [KeyPart.str t, p] = some (Val.obj o2) := by
            rw [show (onDeleteGo t id o
                (kvList (kvDel st [KeyPart.str t, KeyPart.str id])
                  [KeyPart.str "__indexes_for", KeyPart.str t])
                (kvDel st [KeyPart.str t, KeyPart.str id])) =
              (delete_entry st t id).1 from by rw [hD]]
            exact hge
          exact onDeleteGo_some _ _ _ _ hnd1 hg1
        obtain ⟨idv2, hiv2, hipv2⟩ := recWFB_recwf hwfb t p o2 hgS
        have hive : idv2 = TSVal.str id :=
          Option.some.inj (hiv2.symm.trans hcon)
        rw [hive] at hipv2
        have hpe : p = KeyPart.str id := by
          simpa [TSVal.toKeyPart] using hipv2.symm
        rw [hpe] at hge
        rw [hge] at hgone
        exact Option.noConfusion hgone

/-- C2 (witness). -/
theorem c2_delete_entry_spec_witness :
    delete_entry [] "users" "X" = ([], some DBErr.notFound) ∧
    (delete_entry (create_entry (create_index [] "users" "email").1 "users" 0
        "0000000000000000" [("email", TSVal.str "a")]).1 "users"
      "00000000000000000000000000").2 = none ∧
    get_entry (delete_entry (create_entry (create_index [] "users" "email").1
        "users" 0 "0000000000000000" [("email", TSVal.str "a")]).1 "users"
        "00000000000000000000000000").1 "users"
      (some (TSVal.str "00000000000000000000000000")) = .ok none ∧
    kvGet (delete_entry (create_entry (create_index [] "users" "email").1
        "users" 0 "0000000000000000" [("email", TSVal.str "a")]).1 "users"
        "00000000000000000000000000").1
      (idxKey "users" "email" (KeyPart.str "a")
        (KeyPart.str "00000000000000000000000000")) = none := by
  have h := (c2_delete_entry_spec
      (create_entry (create_index [] "users" "email").1 "users" 0
        "0000000000000000" [("email", TSVal.str "a")]).1 "users"
      "00000000000000000000000000").2
    (mkEntry 0 "0000000000000000" [("email", TSVal.str "a")])
    (by decide) (by decide) (by decide)
  exact ⟨(c2_delete_entry_spec [] "users" "X").1 (by decide),
    h.1, h.2.1,
    h.2.2.1 "email" (TSVal.str "a") (KeyPart.str "a")
      (by decide) (by decide) (by decide)⟩

/-- C10 (witness). -/
theorem c10_index_entry_shape_witness :
    keyPre [KeyPart.str "__indexes"]
      (idxKey "users" "email" (KeyPart.str "a") (KeyPart.str "u1")) = true ∧
    (kvGet (create_index [] "users" "email").1
        (idxKey "users" "email" (KeyPart.str "a") (KeyPart.str "u1")) =
      kvGet [] (idxKey "users" "email" (KeyPart.str "a") (KeyPart.str "u1")) ∨
      ∃ t2 f2 vp ip idv,
        idxKey "users" "email" (KeyPart.str "a") (KeyPart.str "u1") =
          idxKey t2 f2 vp ip ∧
        kvGet (create_index [] "users" "email").1
          (idxKey "users" "email" (KeyPart.str "a") (KeyPart.str "u1")) =
          some (Val.prim idv) ∧ idv.toKeyPart = some ip) :=
  ⟨by decide,
    (c10_index_entry_shape [] "users" "email" []
      (idxKey "users" "email" (KeyPart.str "a") (KeyPart.str "u1"))
      (by decide)).1⟩
